import Mathlib

/-!
# The base-85 bootstrap template (`scripts/static-pie-template-amd64-short.c`)

A shallow embedding of the C template: the base-85 decoder `b85tobin`, the
page-alignment arithmetic, the launcher assembly and the population of the
platform descriptor in `__libc_start_main`.

Conventions of the embedding.
* A C object (an array) is a `List Nat` of bytes; pointers into it are offsets.
  An access outside the object is `Outcome.fault` (undefined behaviour in C).
* `u32`, `u64` and `size_t` values are `Nat` with an explicit `% 2 ^ 32` or
  `% 2 ^ 64` wherever the C operation can wrap.
* Loops that the C text does not bound take a step budget; exhausting it is
  `Outcome.timeout`, which is distinct from a fault and from a normal return.
* Storage that the C code leaves uninitialised (`digittobin`, `pd`) is a
  parameter holding the prior contents.
-/

namespace Basm

/-- How running a piece of the program ends. -/
inductive Outcome (α : Type) where
  | done (a : α)
  | fault
  | timeout
  deriving DecidableEq

/-! ## Memory objects -/

/-- Write the `n` low bytes of `v` at offset `a`, least significant first
(the layout of a store on amd64). -/
def writeLE : Nat → List Nat → Nat → Nat → List Nat
  | 0, mem, _, _ => mem
  | n + 1, mem, a, v => writeLE n (mem.set a (v % 256)) (a + 1) (v / 256)

/-- An `n`-byte store `*(uN *)(mem + a) = v`; it faults outside the object. -/
def store (n : Nat) (mem : List Nat) (a v : Nat) : Outcome (List Nat) :=
  if a + n ≤ mem.length then .done (writeLE n mem a v) else .fault

/-- Read `n` bytes at offset `a` as a little-endian number. -/
def readLE : Nat → List Nat → Nat → Nat
  | 0, _, _ => 0
  | n + 1, mem, a => mem.getD a 0 + 256 * readLE n mem (a + 1)

/-! ## The decoder -/

/-- The alphabet:
`const char *b85 = "0123456789ABC...XYZabc...xyz!#$%&()*+-;<=>\?@^_BACKTICK{|}~";` -/
def b85 : String :=
  "0123456789ABCDEFGHIJKLMNOPQRSTUVWXYZabcdefghijklmnopqrstuvwxyz!#$%&()*+-;<=>?@^_`\x7b|\x7d~"

/-- The bytes of a C string literal (without the terminating NUL). -/
def cbytes (s : String) : List Nat := s.toList.map Char.toNat

/-- The byte `(u8)s[i]` of a C string; index `length` is the terminating NUL. -/
def cchar (s : String) (i : Nat) : Nat := (cbytes s).getD i 0 % 256

/-- The assignment `t[k] = v`. -/
def tableSet (t : Nat → Nat) (k v : Nat) : Nat → Nat :=
  fun j => if j = k then v else t j

/-- The table after `for (u8 i=0; i<85; i++) digittobin[(u8)b85[i]] = i;`, where
`t0` is the uninitialised content of `u8 digittobin[256]`. -/
def digittobin (t0 : Nat → Nat) : Nat → Nat :=
  (List.range 85).foldl (fun t i => tableSet t (cchar b85 i) i) t0

/-- The inner loop `while (*src == '\0') src++;`. -/
def skipNul (mem : List Nat) : Nat → Nat → Outcome Nat
  | 0, _ => .timeout
  | fuel + 1, src =>
    match mem[src]? with
    | none => .fault
    | some c => if c = 0 then skipNul mem fuel (src + 1) else .done src

/-- The loop `for (u32 i=0; i<5; i++) { value *= 85; value += digittobin[(u8)*src++]; }`
with `n` iterations left; it returns `value` and `src`. -/
def accumulate (tab : Nat → Nat) (mem : List Nat) : Nat → Nat → Nat → Outcome (Nat × Nat)
  | 0, value, src => .done (value, src)
  | n + 1, value, src =>
    match mem[src]? with
    | none => .fault
    | some c => accumulate tab mem n ((value * 85 % 2 ^ 32 + tab (c % 256)) % 2 ^ 32) (src + 1)

/-- The stored expression
`(value >> 24) | ((value >> 8) & 0xff00) | ((value << 8) & 0xff0000) | (value << 24)`
on `u32`. -/
def swapped (value : Nat) : Nat :=
  (value >>> 24) ||| ((value >>> 8) &&& 0xff00) |||
    (((value <<< 8) % 2 ^ 32) &&& 0xff0000) ||| ((value <<< 24) % 2 ^ 32)

/-- The local state of `b85tobin`: the memory object, the write pointer `p`
and the read pointer `src` (both offsets into `mem`). -/
structure DecState where
  mem : List Nat
  p : Nat
  src : Nat
  deriving DecidableEq

/-- One group: lines 16-21 of the source (`u32 value = 0;`, the 5-symbol loop
and the store `*p++ = ...`). -/
def decodeGroup (tab : Nat → Nat) (s : DecState) : Outcome DecState :=
  match accumulate tab s.mem 5 0 s.src with
  | .done (value, src) =>
    match store 4 s.mem s.p (swapped value) with
    | .done mem => .done ⟨mem, s.p + 4, src⟩
    | .fault => .fault
    | .timeout => .timeout
  | .fault => .fault
  | .timeout => .timeout

/-- The loop `while (1) { ... }` of `b85tobin`. -/
def decodeLoop (tab : Nat → Nat) : Nat → DecState → Outcome DecState
  | 0, _ => .timeout
  | fuel + 1, s =>
    match skipNul s.mem (fuel + 1) s.src with
    | .done src =>
      if s.mem.getD src 0 = 93 then .done ⟨s.mem, s.p, src⟩
      else
        match decodeGroup tab ⟨s.mem, s.p, src⟩ with
        | .done s1 => decodeLoop tab fuel s1
        | .fault => .fault
        | .timeout => .timeout
    | .fault => .fault
    | .timeout => .timeout

/-- The call `b85tobin(mem + dest, mem + src)`: `t0` is the uninitialised content
of `digittobin`, `fuel` the step budget. The result is the state at `break`. -/
def b85tobin (t0 : Nat → Nat) (fuel : Nat) (mem : List Nat) (dest src : Nat) :
    Outcome DecState :=
  decodeLoop (digittobin t0) fuel ⟨mem, dest, src⟩

/-! ## Page arithmetic -/

/-- The expression `a & 0xFFFFFFFFFFFFF000ULL`. -/
def pageBase (a : Nat) : Nat := a &&& 0xFFFFFFFFFFFFF000

/-- The two statements `len = (a + s) - base; len = ((len + 0xFFF) >> 12) << 12;`
on `size_t` (all operations modulo `2 ^ 64`). -/
def pageLen (a s base : Nat) : Nat :=
  let len := ((a + s) % 2 ^ 64 + 2 ^ 64 - base) % 2 ^ 64
  ((((len + 0xFFF) % 2 ^ 64) >>> 12) <<< 12) % 2 ^ 64

/-! ## The bootstrap `__libc_start_main` -/

/-- The packed structure `PLATFORM_DATA`. -/
structure PLATFORM_DATA where
  env_id : Nat
  env_flags : Nat
  win : Fin 2 → Nat
  fn_table : Fin 6 → Nat

/-- The values the generator substitutes for the placeholders of the template. -/
structure Template where
  /-- the bytes of `stub_raw[]`; `sizeof(stub_raw)` is the length of the list -/
  stub_raw : List Nat
  /-- the constant `stub_len` -/
  stub_len : Nat
  /-- the bytes of `payload[][min_len_4096]`, row after row -/
  payload : List Nat

/-- What the compiler, the loader and the stack supply at run time. -/
structure Env where
  /-- the address `(size_t)stub_raw` -/
  stub_raw_addr : Nat
  /-- the address `(size_t)stubbuf` -/
  stubbuf_addr : Nat
  /-- the address of `payload` -/
  payload_addr : Nat
  /-- the address `&pd` -/
  pd_addr : Nat
  /-- the content of the storage of `pd` before any assignment -/
  pd0 : PLATFORM_DATA
  /-- the content of `digittobin` before the table loop, first call -/
  tab1 : Nat → Nat
  /-- the content of `digittobin` before the table loop, second call -/
  tab2 : Nat → Nat

/-- The string literal that initialises `stubbuf`. -/
def prologue : String :=
  "QMd~L002n8@6D@;XGJ3cz5oya01pLO>naZmS5~+Q0000n|450>x(5IN07=KfA^-pYO)<bp|Hw@-$qxlyU&9Xz]"

/-- The declaration `u8 stubbuf[68 + stub_len] = "...";`: the bytes of the literal, then
zeros. Where the literal is longer than the array its surplus is dropped. -/
def stubbufInit (stub_len : Nat) : List Nat :=
  (List.range (68 + stub_len)).map fun i => (cbytes prologue).getD i 0

/-- The loop `for (size_t i = 0; i < stub_len; i++) stubbuf[68 + i] = (u8)stub_raw[i];`
with `n` iterations left. -/
def copyStub (stub_raw : List Nat) : Nat → Nat → List Nat → Outcome (List Nat)
  | 0, _, buf => .done buf
  | n + 1, i, buf =>
    match stub_raw[i]? with
    | none => .fault
    | some b =>
      if 68 + i < buf.length then copyStub stub_raw n (i + 1) (buf.set (68 + i) (b % 256))
      else .fault

/-- The launcher assembly, lines 56-63: initialise `stubbuf`, decode it in place,
append the stub, compute the region of `stub_raw` and patch the two header fields. -/
def assemble (fuel : Nat) (T : Template) (E : Env) : Outcome (List Nat) :=
  match b85tobin E.tab1 fuel (stubbufInit T.stub_len) 0 0 with
  | .done s =>
    match copyStub T.stub_raw T.stub_len 0 s.mem with
    | .done buf =>
      let base := pageBase E.stub_raw_addr
      let len := pageLen E.stub_raw_addr T.stub_raw.length base
      match store 8 buf 0x08 (base % 2 ^ 64) with
      | .done buf1 => store 4 buf1 0x11 (len % 2 ^ 32)
      | .fault => .fault
      | .timeout => .timeout
    | .fault => .fault
    | .timeout => .timeout
  | .fault => .fault
  | .timeout => .timeout

/-- A call `syscall(nr, args...)`. -/
structure Syscall where
  nr : Nat
  args : List Nat
  deriving DecidableEq

/-- The state of the program at the call `((stub_ptr) stubbuf)(&pd, payload)`. -/
structure Invocation where
  /-- the content of `pd` -/
  pd : PLATFORM_DATA
  /-- the content of `stubbuf` -/
  stubbuf : List Nat
  /-- the content of `payload` -/
  payload : List Nat
  /-- the system calls made so far, oldest first -/
  syscalls : List Syscall
  /-- the address called -/
  entry : Nat
  /-- the first argument, `&pd` -/
  arg1 : Nat
  /-- the second argument, `payload` -/
  arg2 : Nat

/-- The body of `__libc_start_main` up to the call of the stub. -/
def __libc_start_main (fuel : Nat) (T : Template) (E : Env) : Outcome Invocation :=
  let pd1 : PLATFORM_DATA := { E.pd0 with env_id := 2 }
  let pd2 : PLATFORM_DATA := { pd1 with env_flags := 1 }
  match assemble fuel T E with
  | .done stubbuf =>
    let base := pageBase E.stubbuf_addr
    let len := pageLen E.stubbuf_addr (68 + T.stub_len) base
    let sys : List Syscall := [⟨10, [base, len, 0x7]⟩]
    let pd3 : PLATFORM_DATA :=
      { pd2 with fn_table := Function.update pd2.fn_table 0 ((E.stubbuf_addr + 0x1c) % 2 ^ 64) }
    match b85tobin E.tab2 fuel T.payload 0 0 with
    | .done s => .done ⟨pd3, stubbuf, s.mem, sys, E.stubbuf_addr, E.pd_addr, E.payload_addr⟩
    | .fault => .fault
    | .timeout => .timeout
  | .fault => .fault
  | .timeout => .timeout

/-! ## Specification vocabulary for the decoder -/

/-- The rank of a symbol: its position in the alphabet `b85`. -/
def rank (c : Nat) : Nat := (cbytes b85).indexOf c

/-- A group of 5 input symbols. -/
structure Group where
  c0 : Nat
  c1 : Nat
  c2 : Nat
  c3 : Nat
  c4 : Nat
  deriving DecidableEq

/-- The symbols of a group in reading order. -/
def Group.chars (g : Group) : List Nat := [g.c0, g.c1, g.c2, g.c3, g.c4]

/-- Every symbol of the group belongs to the alphabet. -/
def Group.Valid (g : Group) : Prop := ∀ c ∈ g.chars, c ∈ cbytes b85

instance (g : Group) : Decidable g.Valid := by unfold Group.Valid; infer_instance

/-- The base-85 value of a group, first symbol most significant. -/
def Group.value (g : Group) : Nat :=
  rank g.c0 * 85 ^ 4 + rank g.c1 * 85 ^ 3 + rank g.c2 * 85 ^ 2 + rank g.c3 * 85 + rank g.c4

/-- The four low bytes of `v`, most significant first. -/
def beBytes (v : Nat) : List Nat := [v / 2 ^ 24 % 256, v / 2 ^ 16 % 256, v / 2 ^ 8 % 256, v % 256]

/-- A well-formed encoded text: before each group a number of NUL characters,
then `m` NULs and the sentinel `]`. -/
def encodedText : List (Nat × Group) → Nat → List Nat
  | [], m => List.replicate m 0 ++ [93]
  | sg :: segs, m => List.replicate sg.1 0 ++ (sg.2.chars ++ encodedText segs m)

/-- A well-formed encoded text without NULs: the groups, then the sentinel `]`. -/
def groupsText : List Group → List Nat
  | [] => [93]
  | g :: gs => g.chars ++ groupsText gs

/-- The bytes a list of groups stands for: 4 bytes a group, most significant first. -/
def decodedBytes : List Group → List Nat
  | [] => []
  | g :: gs => beBytes (g.value % 2 ^ 32) ++ decodedBytes gs

/-- Cut a text into groups of 5 characters (a remainder of fewer than 5 is dropped). -/
def toGroups : List Nat → List Group
  | c0 :: c1 :: c2 :: c3 :: c4 :: rest => ⟨c0, c1, c2, c3, c4⟩ :: toGroups rest
  | _ => []

/-- The 68 bytes the prologue text stands for. -/
def prologueBytes : List Nat := decodedBytes (toGroups (cbytes prologue))

/-- Lines 56-58: the launcher buffer before the header is patched (initialise, decode in
place, append the stub). -/
def assembleUnpatched (fuel : Nat) (T : Template) (E : Env) : Outcome (List Nat) :=
  match b85tobin E.tab1 fuel (stubbufInit T.stub_len) 0 0 with
  | .done s => copyStub T.stub_raw T.stub_len 0 s.mem
  | .fault => .fault
  | .timeout => .timeout

/-- Lines 62-63: the two stores `*(u64 *)(stubbuf + 0x08) = (u64) base;` and
`*(u32 *)(stubbuf + 0x11) = (u32) len;`. -/
def patchHeader (buf : List Nat) (base len : Nat) : Outcome (List Nat) :=
  match store 8 buf 0x08 (base % 2 ^ 64) with
  | .done buf1 => store 4 buf1 0x11 (len % 2 ^ 32)
  | .fault => .fault
  | .timeout => .timeout

/-- The decoder as the specification words it (sections 4.1 and 9), a pure function from the
text to the bytes: skip NUL characters between groups, stop at the sentinel `]`, and for each
group of 5 symbols accumulate `value = value * 85 + rank symbol` into a 32-bit quantity whose
bytes are output most significant first. A text that ends inside a group or without a
sentinel yields what was decoded so far. -/
def decodeSpec : List Nat → List Nat
  | [] => []
  | c :: t =>
    if c = 0 then decodeSpec t
    else if c = 93 then []
    else
      match t with
      | c1 :: c2 :: c3 :: c4 :: t' =>
        beBytes ([c, c1, c2, c3, c4].foldl (fun value x => value * 85 + rank x) 0 % 2 ^ 32) ++
          decodeSpec t'
      | _ => []

/-- The state of the loop of `b85tobin` after `k` groups: `k` passes through the body of
`while (1)` (a pass that meets the sentinel ends the run at the state of the `break`). -/
def afterGroups (tab : Nat → Nat) : Nat → Nat → DecState → Outcome DecState
  | _, 0, s => .done s
  | 0, _ + 1, _ => .timeout
  | fuel + 1, k + 1, s =>
    match skipNul s.mem (fuel + 1) s.src with
    | .done src =>
      if s.mem.getD src 0 = 93 then .done ⟨s.mem, s.p, src⟩
      else
        match decodeGroup tab ⟨s.mem, s.p, src⟩ with
        | .done s1 => afterGroups tab fuel k s1
        | .fault => .fault
        | .timeout => .timeout
    | .fault => .fault
    | .timeout => .timeout

/-- The number of characters of a well-formed text that its first `k` groups take, the NULs
before them included. -/
def consumed : List (Nat × Group) → Nat → Nat
  | _, 0 => 0
  | [], _ + 1 => 0
  | sg :: segs, k + 1 => sg.1 + 5 + consumed segs k

/-! ## A concrete instance -/

/-- An instance of the template: a stub of `size` bytes `0x90` of which 18 are copied
(`stub_len = 18`), and the empty payload `"]"`. -/
def sampleTemplate (size : Nat) : Template := ⟨List.replicate size 0x90, 18, [93]⟩

/-- A run-time environment: `stub_raw` at `0x401000`, `stubbuf` at `0x7ffd00001230`, and a
stack that held `9` in both `win` slots of `pd`. -/
def sampleEnv : Env :=
  ⟨0x401000, 0x7ffd00001230, 0x404000, 0x7ffd00001200, ⟨0, 0, fun _ => 9, fun _ => 0⟩,
    fun _ => 0, fun _ => 0⟩

/-! ## Lemmas on memory objects -/

theorem length_writeLE (n : Nat) :
    ∀ (mem : List Nat) (a v : Nat), (writeLE n mem a v).length = mem.length := by
  induction n with
  | zero => intro mem a v; rfl
  | succ n ih => intro mem a v; simp [writeLE, ih]

theorem getElem?_writeLE (n : Nat) : ∀ (mem : List Nat) (a v i : Nat),
    (writeLE n mem a v)[i]? =
      if a ≤ i ∧ i < a + n ∧ i < mem.length then some (v / 256 ^ (i - a) % 256) else mem[i]? := by
  induction n with
  | zero =>
    intro mem a v i
    have h : ¬ (a ≤ i ∧ i < a + 0 ∧ i < mem.length) := by omega
    rw [if_neg h]; rfl
  | succ n ih =>
    intro mem a v i
    rw [writeLE, ih, List.length_set, List.getElem?_set]
    by_cases h1 : a = i
    · subst h1
      by_cases h2 : a < mem.length
      · simp [h2]
      · simp [h2]
        omega
    · by_cases h2 : a + 1 ≤ i ∧ i < a + 1 + n ∧ i < mem.length
      · have h3 : a ≤ i ∧ i < a + (n + 1) ∧ i < mem.length := by omega
        rw [if_pos h2, if_pos h3]
        have : i - a = (i - (a + 1)) + 1 := by omega
        rw [this, pow_succ, Nat.div_div_eq_div_mul, Nat.mul_comm]
      · have h3 : ¬ (a ≤ i ∧ i < a + (n + 1) ∧ i < mem.length) := by omega
        rw [if_neg h2, if_neg h3, if_neg h1]

/-! ## Lemmas on the alphabet and the byte swap -/

theorem alphabet_cases (c : Nat) (hc : c ∈ cbytes b85) : ∃ k : Fin 85, c = cchar b85 k := by
  obtain ⟨i, hi, rfl⟩ := List.mem_iff_getElem.1 hc
  have h85 : (cbytes b85).length = 85 := by decide
  refine ⟨⟨i, h85 ▸ hi⟩, ?_⟩
  have hall : ∀ k : Fin 85, (cbytes b85).getD k 0 = cchar b85 k := by decide
  have := hall ⟨i, h85 ▸ hi⟩
  simp only [List.getD_eq_getElem?_getD, List.getElem?_eq_getElem hi] at this
  simpa using this

theorem alphabet_facts (t0 : Nat → Nat) (c : Nat) (hc : c ∈ cbytes b85) :
    digittobin t0 (c % 256) = rank c ∧ rank c < 85 ∧ c ≠ 0 ∧ c ≠ 93 := by
  obtain ⟨k, rfl⟩ := alphabet_cases c hc
  have h1 : ∀ k : Fin 85, digittobin t0 (cchar b85 k % 256) = rank (cchar b85 k) := by
    intro k; fin_cases k <;> rfl
  have h2 : ∀ k : Fin 85, rank (cchar b85 k) < 85 ∧ cchar b85 k ≠ 0 ∧ cchar b85 k ≠ 93 := by
    decide
  exact ⟨h1 k, h2 k⟩

theorem testBit_swapped (v i : Nat) (h : v < 2 ^ 32) :
    (swapped v).testBit i = (decide (i < 32) && v.testBit (8 * (3 - i / 8) + i % 8)) := by
  have hv : ∀ j, 32 ≤ j → v.testBit j = false := fun j hj =>
    Nat.testBit_lt_two_pow (lt_of_lt_of_le h (Nat.pow_le_pow_right (by norm_num) hj))
  unfold swapped
  have e1 : (0xff00 : Nat) = (2 ^ 8 - 1) <<< 8 := by decide
  have e2 : (0xff0000 : Nat) = (2 ^ 8 - 1) <<< 16 := by decide
  rw [e1, e2]
  simp only [Nat.testBit_or, Nat.testBit_and, Nat.testBit_shiftRight, Nat.testBit_shiftLeft,
    Nat.testBit_mod_two_pow, Nat.testBit_two_pow_sub_one]
  by_cases hi : i < 32
  · interval_cases i <;> simp (disch := omega) [hv]
  · have h1 := hv (24 + i) (by omega)
    have h2 := hv (8 + i) (by omega)
    simp [hi, h1, h2]

theorem byte_testBit (x k i : Nat) :
    (x / 2 ^ k % 256).testBit i = (decide (i < 8) && x.testBit (k + i)) := by
  have : (256 : Nat) = 2 ^ 8 := by norm_num
  rw [this, Nat.testBit_mod_two_pow, ← Nat.shiftRight_eq_div_pow, Nat.testBit_shiftRight]

theorem swapped_bytes (v : Nat) (h : v < 2 ^ 32) :
    swapped v % 256 = v / 2 ^ 24 % 256 ∧ swapped v / 2 ^ 8 % 256 = v / 2 ^ 16 % 256 ∧
    swapped v / 2 ^ 16 % 256 = v / 2 ^ 8 % 256 ∧ swapped v / 2 ^ 24 % 256 = v % 256 := by
  have key : ∀ j, j < 4 → swapped v / 2 ^ (8 * j) % 256 = v / 2 ^ (8 * (3 - j)) % 256 := by
    intro j hj
    apply Nat.eq_of_testBit_eq
    intro i
    rw [byte_testBit, byte_testBit, testBit_swapped v _ h]
    by_cases hi : i < 8
    · have e1 : (8 * j + i) / 8 = j := by omega
      have e2 : (8 * j + i) % 8 = i := by omega
      have e3 : 8 * j + i < 32 := by omega
      simp [hi, e1, e2, e3]
    · simp [hi]
  have k0 := key 0 (by norm_num)
  have k1 := key 1 (by norm_num)
  have k2 := key 2 (by norm_num)
  have k3 := key 3 (by norm_num)
  simp only [Nat.mul_zero, Nat.pow_zero, Nat.div_one, Nat.sub_zero, Nat.sub_self,
    Nat.mul_one] at k0 k1 k2 k3
  exact ⟨k0, k1, k2, k3⟩

/-! ## One group -/

theorem accumulate_group (t0 : Nat → Nat) (g : Group) (hg : g.Valid) (mem : List Nat)
    (src : Nat) (hsrc : ∀ i, i < 5 → mem[src + i]? = g.chars[i]?) :
    accumulate (digittobin t0) mem 5 0 src = .done (g.value % 2 ^ 32, src + 5) := by
  have h0 := hsrc 0 (by norm_num)
  have h1 := hsrc 1 (by norm_num)
  have h2 := hsrc 2 (by norm_num)
  have h3 := hsrc 3 (by norm_num)
  have h4 := hsrc 4 (by norm_num)
  simp only [Group.chars, List.getElem?_cons_zero, List.getElem?_cons_succ, Nat.add_zero] at h0 h1 h2 h3 h4
  obtain ⟨a0, b0, -, -⟩ := alphabet_facts t0 g.c0 (hg _ (by simp [Group.chars]))
  obtain ⟨a1, b1, -, -⟩ := alphabet_facts t0 g.c1 (hg _ (by simp [Group.chars]))
  obtain ⟨a2, b2, -, -⟩ := alphabet_facts t0 g.c2 (hg _ (by simp [Group.chars]))
  obtain ⟨a3, b3, -, -⟩ := alphabet_facts t0 g.c3 (hg _ (by simp [Group.chars]))
  obtain ⟨a4, b4, -, -⟩ := alphabet_facts t0 g.c4 (hg _ (by simp [Group.chars]))
  simp only [accumulate, h0, h1, h2, h3, h4, a0, a1, a2, a3, a4, Nat.add_assoc]
  simp only [Group.value]
  congr 2
  omega

theorem length_decodedBytes (gs : List Group) : (decodedBytes gs).length = 4 * gs.length := by
  induction gs with
  | nil => rfl
  | cons g gs ih => simp [decodedBytes, beBytes, ih]; omega

theorem skipNul_spec (mem : List Nat) (c : Nat) (hc : c ≠ 0) : ∀ (n fuel src : Nat),
    (∀ i, i < n → mem[src + i]? = some 0) → mem[src + n]? = some c → n < fuel →
    skipNul mem fuel src = .done (src + n) := by
  intro n
  induction n with
  | zero =>
    intro fuel src _ h1 hf
    obtain ⟨f, rfl⟩ : ∃ f, fuel = f + 1 := ⟨fuel - 1, by omega⟩
    simp only [Nat.add_zero] at h1
    simp [skipNul, h1, hc]
  | succ n ih =>
    intro fuel src h0 h1 hf
    obtain ⟨f, rfl⟩ : ∃ f, fuel = f + 1 := ⟨fuel - 1, by omega⟩
    have hz := h0 0 (by omega)
    simp only [Nat.add_zero] at hz
    simp only [skipNul, hz, if_true]
    have := ih f (src + 1) (fun i hi => by have := h0 (i + 1) (by omega); rwa [show src + 1 + i = src + (i + 1) by omega])
      (by rwa [show src + 1 + n = src + (n + 1) by omega]) (by omega)
    rw [this]; congr 1; omega

theorem decodeGroup_spec (t0 : Nat → Nat) (g : Group) (hg : g.Valid) (mem : List Nat)
    (p src : Nat) (hsrc : ∀ i, i < 5 → mem[src + i]? = g.chars[i]?) (hp : p + 4 ≤ mem.length) :
    decodeGroup (digittobin t0) ⟨mem, p, src⟩ =
      .done ⟨writeLE 4 mem p (swapped (g.value % 2 ^ 32)), p + 4, src + 5⟩ := by
  simp only [decodeGroup, accumulate_group t0 g hg mem src hsrc, store, if_pos hp]

theorem getElem?_writeLE_swapped (mem : List Nat) (p v a : Nat) (hv : v < 2 ^ 32)
    (hp : p + 4 ≤ mem.length) :
    (writeLE 4 mem p (swapped v))[a]? =
      if p ≤ a ∧ a < p + 4 then (beBytes v)[a - p]? else mem[a]? := by
  rw [getElem?_writeLE]
  obtain ⟨b0, b1, b2, b3⟩ := swapped_bytes v hv
  by_cases h : p ≤ a ∧ a < p + 4
  · have h' : p ≤ a ∧ a < p + 4 ∧ a < mem.length := by omega
    rw [if_pos h, if_pos h']
    obtain ⟨j, hj, rfl⟩ : ∃ j, j < 4 ∧ a = p + j := ⟨a - p, by omega, by omega⟩
    have e : p + j - p = j := by omega
    rw [e]
    interval_cases j
    · simpa [beBytes] using b0
    · simpa [beBytes] using b1
    · simp only [beBytes]; rw [show (256:Nat)^2 = 2^16 by norm_num]; simpa using b2
    · simp only [beBytes]; rw [show (256:Nat)^3 = 2^24 by norm_num]; simpa using b3
  · have h' : ¬ (p ≤ a ∧ a < p + 4 ∧ a < mem.length) := by omega
    rw [if_neg h, if_neg h']

/-! ## The decoding loop -/

theorem length_encodedText_cons (sg : Nat × Group) (segs : List (Nat × Group)) (m : Nat) :
    (encodedText (sg :: segs) m).length = sg.1 + 5 + (encodedText segs m).length := by
  simp [encodedText, Group.chars]; omega

theorem length_encodedText_pos (segs : List (Nat × Group)) (m : Nat) :
    0 < (encodedText segs m).length := by
  cases segs with
  | nil => simp [encodedText]
  | cons sg segs => rw [length_encodedText_cons]; omega

theorem value_mod_lt (g : Group) : g.value % 2 ^ 32 < 2 ^ 32 := Nat.mod_lt _ (by norm_num)

theorem decodeLoop_encodedText (t0 : Nat → Nat) : ∀ (segs : List (Nat × Group))
    (m fuel : Nat) (mem : List Nat) (p src : Nat),
    (∀ sg ∈ segs, sg.2.Valid) →
    (∀ i, i < (encodedText segs m).length → mem[src + i]? = (encodedText segs m)[i]?) →
    (p ≤ src ∨ src + (encodedText segs m).length ≤ p) →
    p + 4 * segs.length ≤ mem.length →
    (encodedText segs m).length ≤ fuel →
    ∃ mem', decodeLoop (digittobin t0) fuel ⟨mem, p, src⟩ =
        .done ⟨mem', p + 4 * segs.length, src + (encodedText segs m).length - 1⟩ ∧
      mem'.length = mem.length ∧
      ∀ a, mem'[a]? = if p ≤ a ∧ a < p + 4 * segs.length
        then (decodedBytes (segs.map Prod.snd))[a - p]? else mem[a]? := by
  intro segs
  induction segs with
  | nil =>
    intro m fuel mem p src _ htxt _ _ hfuel
    have hlen : (encodedText [] m).length = m + 1 := by simp [encodedText]
    rw [hlen] at htxt hfuel
    obtain ⟨f, rfl⟩ : ∃ f, fuel = f + 1 := ⟨fuel - 1, by omega⟩
    have hz : ∀ i, i < m → mem[src + i]? = some 0 := by
      intro i hi
      rw [htxt i (by omega)]
      simp [encodedText, List.getElem?_append_left, hi]
    have hs : mem[src + m]? = some 93 := by
      rw [htxt m (by omega)]
      simp [encodedText, List.getElem?_append_right]
    have hskip := skipNul_spec mem 93 (by norm_num) m (f + 1) src hz hs (by omega)
    refine ⟨mem, ?_, rfl, ?_⟩
    · simp only [decodeLoop, hskip, List.getD_eq_getElem?_getD, hs, Option.getD_some, if_true]
      simp [hlen]
    · intro a
      have : ¬ (p ≤ a ∧ a < p + 4 * ([] : List (Nat × Group)).length) := by simp
      rw [if_neg this]
  | cons sg segs ih =>
    intro m fuel mem p src hvalid htxt hpos hp hfuel
    have hlen := length_encodedText_cons sg segs m
    have hrest := length_encodedText_pos segs m
    rw [hlen] at htxt hfuel hpos
    obtain ⟨f, rfl⟩ : ∃ f, fuel = f + 1 := ⟨fuel - 1, by omega⟩
    have hg : sg.2.Valid := hvalid sg (by simp)
    have hz : ∀ i, i < sg.1 → mem[src + i]? = some 0 := by
      intro i hi
      rw [htxt i (by omega)]
      simp [encodedText, List.getElem?_append_left, hi]
    have hgr : ∀ i, i < 5 → mem[src + sg.1 + i]? = sg.2.chars[i]? := by
      intro i hi
      rw [Nat.add_assoc, htxt (sg.1 + i) (by omega)]
      simp only [encodedText]
      rw [List.getElem?_append_right (by simp), List.getElem?_append_left (by simpa [Group.chars] using hi)]
      simp
    have hrs : ∀ i, i < (encodedText segs m).length →
        mem[src + sg.1 + 5 + i]? = (encodedText segs m)[i]? := by
      intro i hi
      rw [show src + sg.1 + 5 + i = src + (sg.1 + 5 + i) by omega, htxt (sg.1 + 5 + i) (by omega)]
      simp only [encodedText]
      rw [List.getElem?_append_right (by simp; omega), List.getElem?_append_right (by simp [Group.chars]; omega)]
      congr 1
      simp [Group.chars]; omega
    have hc0 : mem[src + sg.1]? = some sg.2.c0 := by
      have := hgr 0 (by norm_num)
      simpa [Group.chars] using this
    obtain ⟨-, -, hne0, hne93⟩ := alphabet_facts t0 sg.2.c0 (hg _ (by simp [Group.chars]))
    have hskip := skipNul_spec mem sg.2.c0 hne0 sg.1 (f + 1) src hz hc0 (by omega)
    simp only [List.length_cons] at hp
    have hgrp := decodeGroup_spec t0 sg.2 hg mem p (src + sg.1) hgr (by omega)
    have hw := fun a => getElem?_writeLE_swapped mem p _ a (value_mod_lt sg.2)
      (show p + 4 ≤ mem.length by omega)
    obtain ⟨mem', hrun, hl, hmem⟩ := ih m f (writeLE 4 mem p (swapped (sg.2.value % 2 ^ 32)))
      (p + 4) (src + sg.1 + 5) (fun s hs => hvalid s (by simp [hs]))
      (by
        intro i hi
        rw [hw, ← hrs i hi]
        have : ¬ (p ≤ src + sg.1 + 5 + i ∧ src + sg.1 + 5 + i < p + 4) := by omega
        rw [if_neg this])
      (by omega) (by rw [length_writeLE]; omega) (by omega)
    refine ⟨mem', ?_, ?_, ?_⟩
    · simp only [decodeLoop, hskip, List.getD_eq_getElem?_getD, hc0, Option.getD_some, if_neg hne93, hgrp, hrun]
      simp only [List.length_cons, hlen]
      congr 2 <;> omega
    · rw [hl, length_writeLE]
    · intro a
      rw [hmem a, hw a]
      simp only [List.length_cons, List.map_cons, decodedBytes]
      by_cases h1 : p ≤ a ∧ a < p + 4
      · have h2 : ¬ (p + 4 ≤ a ∧ a < p + 4 + 4 * segs.length) := by omega
        have h3 : p ≤ a ∧ a < p + 4 * (segs.length + 1) := by omega
        rw [if_neg h2, if_pos h1, if_pos h3, List.getElem?_append_left (by simp [beBytes]; omega)]
      · by_cases h2 : p + 4 ≤ a ∧ a < p + 4 + 4 * segs.length
        · have h3 : p ≤ a ∧ a < p + 4 * (segs.length + 1) := by omega
          rw [if_pos h2, if_pos h3, List.getElem?_append_right (by simp [beBytes]; omega)]
          congr 1
        · have h3 : ¬ (p ≤ a ∧ a < p + 4 * (segs.length + 1)) := by omega
          rw [if_neg h2, if_neg h1, if_neg h3]

/-! ## Texts without NULs -/

theorem encodedText_plain (gs : List Group) :
    encodedText (gs.map fun g => (0, g)) 0 = groupsText gs := by
  induction gs with
  | nil => rfl
  | cons g gs ih => simp [encodedText, groupsText, ih]

theorem length_groupsText (gs : List Group) : (groupsText gs).length = 5 * gs.length + 1 := by
  induction gs with
  | nil => rfl
  | cons g gs ih => simp [groupsText, Group.chars, ih]; omega

/-- The decoder on a text without NULs. -/
theorem b85tobin_groupsText (t0 : Nat → Nat) (gs : List Group) (fuel : Nat) (mem : List Nat)
    (dest src : Nat) (hvalid : ∀ g ∈ gs, g.Valid)
    (htxt : ∀ i, i < 5 * gs.length + 1 → mem[src + i]? = (groupsText gs)[i]?)
    (halias : dest ≤ src ∨ src + (5 * gs.length + 1) ≤ dest)
    (hdest : dest + 4 * gs.length ≤ mem.length)
    (hfuel : 5 * gs.length + 1 ≤ fuel) :
    ∃ mem', b85tobin t0 fuel mem dest src =
        .done ⟨mem', dest + 4 * gs.length, src + 5 * gs.length⟩ ∧
      mem'.length = mem.length ∧
      ∀ a, mem'[a]? = if dest ≤ a ∧ a < dest + 4 * gs.length
        then (decodedBytes gs)[a - dest]? else mem[a]? := by
  have hl : (encodedText (gs.map fun g => (0, g)) 0).length = 5 * gs.length + 1 := by
    rw [encodedText_plain, length_groupsText]
  obtain ⟨mem', h1, h2, h3⟩ := decodeLoop_encodedText t0 (gs.map fun g => (0, g)) 0 fuel mem
    dest src (by simpa using hvalid) (by rw [hl, encodedText_plain]; exact htxt)
    (by rw [hl]; exact halias) (by simpa using hdest) (by rw [hl]; exact hfuel)
  refine ⟨mem', ?_, h2, ?_⟩
  · rw [b85tobin, h1, hl]; simp
  · intro a
    rw [h3 a]
    simp [Function.comp_def]


/-! ## Page arithmetic -/

theorem pageBase_eq (a : Nat) (ha : a < 2 ^ 64) : pageBase a = a / 4096 * 4096 := by
  have hv : ∀ j, 64 ≤ j → a.testBit j = false := fun j hj =>
    Nat.testBit_lt_two_pow (lt_of_lt_of_le ha (Nat.pow_le_pow_right (by norm_num) hj))
  have e : (0xFFFFFFFFFFFFF000 : Nat) = (2 ^ 52 - 1) <<< 12 := by decide
  have e2 : a / 4096 * 4096 = (a >>> 12) <<< 12 := by
    rw [Nat.shiftRight_eq_div_pow, Nat.shiftLeft_eq]
  rw [pageBase, e, e2]
  apply Nat.eq_of_testBit_eq
  intro i
  simp only [Nat.testBit_and, Nat.testBit_shiftLeft, Nat.testBit_shiftRight,
    Nat.testBit_two_pow_sub_one]
  by_cases h1 : 12 ≤ i
  · have e3 : 12 + (i - 12) = i := by omega
    by_cases h2 : i < 64
    · have : i - 12 < 52 := by omega
      simp [h1, e3, this]
    · simp [hv i (by omega), e3]
  · simp [h1]

theorem pageLen_eq (a s : Nat) :
    pageLen a s (pageBase a) =
      (((a + s) % 2 ^ 64 + 2 ^ 64 - pageBase a) % 2 ^ 64 + 0xFFF) % 2 ^ 64 / 4096 * 4096
        % 2 ^ 64 := by
  simp only [pageLen, Nat.shiftRight_eq_div_pow, Nat.shiftLeft_eq]


theorem pageBase_lt (a : Nat) : pageBase a < 2 ^ 64 :=
  lt_of_le_of_lt Nat.and_le_right (by norm_num)

theorem page_region (a s : Nat) (ha : a < 2 ^ 64)
    (hs : a - pageBase a + s + 0xFFF < 2 ^ 64) :
    pageBase a ≤ a ∧ pageBase a % 4096 = 0 ∧
      pageLen a s (pageBase a) % 4096 = 0 ∧ s ≤ pageLen a s (pageBase a) ∧
      a + s ≤ pageBase a + pageLen a s (pageBase a) ∧
      pageLen a s (pageBase a) < a - pageBase a + s + 4096 := by
  have hb := pageBase_eq a ha
  have hl := pageLen_eq a s
  rw [hb] at hs hl ⊢
  rw [hl]
  omega


/-! ## The launcher assembly -/

theorem length_stubbufInit (n : Nat) : (stubbufInit n).length = 68 + n := by
  simp [stubbufInit]

theorem getElem?_stubbufInit (n a : Nat) (ha : a < 68 + n) :
    (stubbufInit n)[a]? = some ((cbytes prologue).getD a 0) := by
  simp [stubbufInit, List.getElem?_range ha]

/-- The in-place decoding of the prologue inside `stubbuf`. -/
theorem b85tobin_stubbuf (t0 : Nat → Nat) (fuel n : Nat) (hn : 18 ≤ n) (hfuel : 86 ≤ fuel) :
    ∃ mem', b85tobin t0 fuel (stubbufInit n) 0 0 = .done ⟨mem', 68, 85⟩ ∧
      mem'.length = 68 + n ∧
      ∀ a, mem'[a]? = if a < 68 then prologueBytes[a]? else (stubbufInit n)[a]? := by
  have hv : ∀ g ∈ toGroups (cbytes prologue), g.Valid := by decide
  have ht : cbytes prologue = groupsText (toGroups (cbytes prologue)) := by decide
  have h17 : (toGroups (cbytes prologue)).length = 17 := by decide
  have h86 : (cbytes prologue).length = 86 := by decide
  obtain ⟨mem', h1, h2, h3⟩ := b85tobin_groupsText t0 (toGroups (cbytes prologue)) fuel
    (stubbufInit n) 0 0 hv
    (by
      intro i hi
      rw [h17] at hi
      rw [Nat.zero_add, ← ht, getElem?_stubbufInit n i (by omega), List.getD_eq_getElem?_getD,
        List.getElem?_eq_getElem (by omega)]
      rfl)
    (by omega) (by rw [length_stubbufInit, h17]; omega) (by rw [h17]; omega)
  refine ⟨mem', by rw [h1, h17], by rw [h2, length_stubbufInit], ?_⟩
  intro a
  rw [h3 a, h17]
  by_cases ha : a < 68
  · rw [if_pos ha, if_pos (by omega)]; rfl
  · rw [if_neg ha, if_neg (by omega)]

theorem copyStub_spec (raw : List Nat) : ∀ (n i : Nat) (buf : List Nat),
    i + n ≤ raw.length → 68 + i + n ≤ buf.length →
    ∃ buf', copyStub raw n i buf = .done buf' ∧ buf'.length = buf.length ∧
      ∀ a, buf'[a]? = if 68 + i ≤ a ∧ a < 68 + i + n then some (raw.getD (a - 68) 0 % 256)
        else buf[a]? := by
  intro n
  induction n with
  | zero =>
    intro i buf _ _
    refine ⟨buf, rfl, rfl, fun a => ?_⟩
    rw [if_neg (by omega)]
  | succ n ih =>
    intro i buf h1 h2
    have hi : i < raw.length := by omega
    obtain ⟨buf', e1, e2, e3⟩ := ih (i + 1) (buf.set (68 + i) (raw[i] % 256)) (by omega)
      (by rw [List.length_set]; omega)
    refine ⟨buf', ?_, by rw [e2, List.length_set], fun a => ?_⟩
    · simp only [copyStub, List.getElem?_eq_getElem hi, if_pos (show 68 + i < buf.length by omega)]
      exact e1
    · rw [e3 a, List.getElem?_set]
      by_cases ha : 68 + i = a
      · subst ha
        rw [if_neg (by omega), if_pos rfl, if_pos (by omega), if_pos (by omega)]
        simp [List.getD_eq_getElem?_getD, List.getElem?_eq_getElem hi]
      · by_cases hb : 68 + (i + 1) ≤ a ∧ a < 68 + (i + 1) + n
        · rw [if_pos hb, if_pos (by omega)]
        · rw [if_neg hb, if_neg ha, if_neg (by omega)]

/-- The launcher buffer after assembly, byte by byte. -/
theorem assemble_spec (fuel : Nat) (T : Template) (E : Env) (h18 : 18 ≤ T.stub_len)
    (hlen : T.stub_len ≤ T.stub_raw.length) (hfuel : 86 ≤ fuel) :
    ∃ buf, assemble fuel T E = .done buf ∧ buf.length = 68 + T.stub_len ∧
      ∀ a, buf[a]? =
        if 0x11 ≤ a ∧ a < 0x15 then
          some (pageLen E.stub_raw_addr T.stub_raw.length (pageBase E.stub_raw_addr) % 2 ^ 32
            / 256 ^ (a - 0x11) % 256)
        else if 0x08 ≤ a ∧ a < 0x10 then
          some (pageBase E.stub_raw_addr % 2 ^ 64 / 256 ^ (a - 0x08) % 256)
        else if 68 ≤ a ∧ a < 68 + T.stub_len then some (T.stub_raw.getD (a - 68) 0 % 256)
        else if a < 68 then prologueBytes[a]?
        else none := by
  obtain ⟨m1, d1, d2, d3⟩ := b85tobin_stubbuf E.tab1 fuel T.stub_len h18 hfuel
  obtain ⟨m2, c1, c2, c3⟩ := copyStub_spec T.stub_raw T.stub_len 0 m1 (by omega) (by omega)
  refine ⟨writeLE 4 (writeLE 8 m2 0x08 (pageBase E.stub_raw_addr % 2 ^ 64)) 0x11
    (pageLen E.stub_raw_addr T.stub_raw.length (pageBase E.stub_raw_addr) % 2 ^ 32), ?_, ?_, ?_⟩
  · simp only [assemble, d1, c1, store, if_pos (show 0x08 + 8 ≤ m2.length by omega),
      length_writeLE, if_pos (show 0x11 + 4 ≤ m2.length by omega)]
  · rw [length_writeLE, length_writeLE, c2, d2]
  · intro a
    rw [getElem?_writeLE, getElem?_writeLE, length_writeLE, c3 a, d3 a]
    by_cases h1 : 0x11 ≤ a ∧ a < 0x15
    · rw [if_pos (by omega), if_pos h1]
    · rw [if_neg (by omega), if_neg h1]
      by_cases h2 : 0x08 ≤ a ∧ a < 0x10
      · rw [if_pos (by omega), if_pos h2]
      · rw [if_neg (by omega), if_neg h2]
        by_cases h3 : 68 ≤ a ∧ a < 68 + T.stub_len
        · rw [if_pos (by omega), if_pos h3]
        · rw [if_neg (by omega), if_neg h3]
          by_cases h4 : a < 68
          · rw [if_pos h4, if_pos h4]
          · rw [if_neg h4, if_neg h4]
            exact List.getElem?_eq_none (by rw [length_stubbufInit]; omega)

theorem readLE_of_bytes (n : Nat) : ∀ (mem : List Nat) (a v : Nat),
    (∀ j, j < n → mem[a + j]? = some (v / 256 ^ j % 256)) → readLE n mem a = v % 256 ^ n := by
  induction n with
  | zero => intro mem a v _; simp [readLE, Nat.mod_one]
  | succ n ih =>
    intro mem a v h
    have h0 := h 0 (by omega)
    simp only [Nat.add_zero, pow_zero, Nat.div_one] at h0
    have := ih mem (a + 1) (v / 256) (fun j hj => by
      have := h (j + 1) (by omega)
      rw [show a + 1 + j = a + (j + 1) by omega, this, pow_succ, Nat.div_div_eq_div_mul,
        Nat.mul_comm])
    rw [readLE, this, List.getD_eq_getElem?_getD, h0, Option.getD_some, pow_succ', Nat.mod_mul]

/-- The two header fields read back from the assembled launcher. -/
theorem assemble_fields (fuel : Nat) (T : Template) (E : Env) (h18 : 18 ≤ T.stub_len)
    (hlen : T.stub_len ≤ T.stub_raw.length) (hfuel : 86 ≤ fuel) :
    ∃ buf, assemble fuel T E = .done buf ∧ buf.length = 68 + T.stub_len ∧
      readLE 8 buf 0x08 = pageBase E.stub_raw_addr ∧
      readLE 4 buf 0x11 =
        pageLen E.stub_raw_addr T.stub_raw.length (pageBase E.stub_raw_addr) % 2 ^ 32 ∧
      ∀ i, i < T.stub_len → buf[68 + i]? = some (T.stub_raw.getD i 0 % 256) := by
  obtain ⟨buf, h1, h2, h3⟩ := assemble_spec fuel T E h18 hlen hfuel
  refine ⟨buf, h1, h2, ?_, ?_, ?_⟩
  · rw [readLE_of_bytes 8 buf 0x08 (pageBase E.stub_raw_addr % 2 ^ 64)]
    · have := pageBase_lt E.stub_raw_addr
      norm_num
      omega
    · intro j hj
      rw [h3, if_neg (by omega), if_pos (by omega)]
      simp
  · rw [readLE_of_bytes 4 buf 0x11 (pageLen E.stub_raw_addr T.stub_raw.length
      (pageBase E.stub_raw_addr) % 2 ^ 32)]
    · norm_num
    · intro j hj
      rw [h3, if_pos (by omega)]
      simp
  · intro i hi
    rw [h3, if_neg (by omega), if_neg (by omega), if_pos (by omega)]
    simp

theorem length_encodedText_ge (segs : List (Nat × Group)) (m : Nat) :
    5 * segs.length + 1 ≤ (encodedText segs m).length := by
  induction segs with
  | nil => simp [encodedText]
  | cons sg segs ih => rw [length_encodedText_cons]; simp only [List.length_cons]; omega

/-- The state at the call of the stub. -/
theorem libc_start_main_spec (fuel : Nat) (T : Template) (E : Env)
    (segs : List (Nat × Group)) (m : Nat) (rest : List Nat)
    (h18 : 18 ≤ T.stub_len) (hlen : T.stub_len ≤ T.stub_raw.length)
    (hvalid : ∀ sg ∈ segs, sg.2.Valid) (hpay : T.payload = encodedText segs m ++ rest)
    (hfuel : 86 ≤ fuel) (hfuel2 : (encodedText segs m).length ≤ fuel) :
    ∃ buf pay, assemble fuel T E = .done buf ∧
      __libc_start_main fuel T E = .done
        ⟨⟨2, 1, E.pd0.win,
            Function.update E.pd0.fn_table 0 ((E.stubbuf_addr + 0x1c) % 2 ^ 64)⟩,
          buf, pay,
          [⟨10, [pageBase E.stubbuf_addr,
            pageLen E.stubbuf_addr (68 + T.stub_len) (pageBase E.stubbuf_addr), 0x7]⟩],
          E.stubbuf_addr, E.pd_addr, E.payload_addr⟩ := by
  obtain ⟨buf, h1, -, -⟩ := assemble_spec fuel T E h18 hlen hfuel
  have hge := length_encodedText_ge segs m
  obtain ⟨mem', d1, -, -⟩ := decodeLoop_encodedText E.tab2 segs m fuel T.payload 0 0 hvalid
    (by
      intro i hi
      rw [Nat.zero_add, hpay, List.getElem?_append_left hi])
    (Or.inl (le_refl 0)) (by rw [hpay, List.length_append]; omega) hfuel2
  refine ⟨buf, mem', h1, ?_⟩
  simp only [__libc_start_main, h1, b85tobin, d1]


/-- The state at the call of the stub, with the launcher buffer byte by byte. -/
theorem libc_start_main_stubbuf (fuel : Nat) (T : Template) (E : Env)
    (segs : List (Nat × Group)) (m : Nat) (rest : List Nat)
    (h18 : 18 ≤ T.stub_len) (hlen : T.stub_len ≤ T.stub_raw.length)
    (hvalid : ∀ sg ∈ segs, sg.2.Valid) (hpay : T.payload = encodedText segs m ++ rest)
    (hfuel : 86 ≤ fuel) (hfuel2 : (encodedText segs m).length ≤ fuel) :
    ∃ inv, __libc_start_main fuel T E = .done inv ∧
      inv.syscalls = [⟨10, [pageBase E.stubbuf_addr,
        pageLen E.stubbuf_addr (68 + T.stub_len) (pageBase E.stubbuf_addr), 0x7]⟩] ∧
      inv.pd.fn_table 0 = (E.stubbuf_addr + 0x1c) % 2 ^ 64 ∧
      inv.stubbuf.length = 68 + T.stub_len ∧
      readLE 8 inv.stubbuf 0x08 = pageBase E.stub_raw_addr ∧
      readLE 4 inv.stubbuf 0x11 =
        pageLen E.stub_raw_addr T.stub_raw.length (pageBase E.stub_raw_addr) % 2 ^ 32 ∧
      ∀ a, inv.stubbuf[a]? =
        if 0x11 ≤ a ∧ a < 0x15 then
          some (pageLen E.stub_raw_addr T.stub_raw.length (pageBase E.stub_raw_addr) % 2 ^ 32
            / 256 ^ (a - 0x11) % 256)
        else if 0x08 ≤ a ∧ a < 0x10 then
          some (pageBase E.stub_raw_addr % 2 ^ 64 / 256 ^ (a - 0x08) % 256)
        else if 68 ≤ a ∧ a < 68 + T.stub_len then some (T.stub_raw.getD (a - 68) 0 % 256)
        else if a < 68 then prologueBytes[a]?
        else none := by
  obtain ⟨buf, pay, h1, h2⟩ :=
    libc_start_main_spec fuel T E segs m rest h18 hlen hvalid hpay hfuel hfuel2
  obtain ⟨buf', a1, a2, a3⟩ := assemble_spec fuel T E h18 hlen hfuel
  obtain ⟨buf'', f1, -, f3, f4, -⟩ := assemble_fields fuel T E h18 hlen hfuel
  have e1 : buf' = buf := by rw [h1] at a1; exact (Outcome.done.inj a1).symm
  have e2 : buf'' = buf := by rw [h1] at f1; exact (Outcome.done.inj f1).symm
  subst e1
  subst e2
  have hfn : Function.update E.pd0.fn_table 0 ((E.stubbuf_addr + 0x1c) % 2 ^ 64) 0 =
      (E.stubbuf_addr + 0x1c) % 2 ^ 64 := Function.update_same _ _ _
  exact ⟨_, h2, rfl, hfn, a2, f3, f4, a3⟩

theorem assemble_eq_patchHeader (fuel : Nat) (T : Template) (E : Env) :
    assemble fuel T E =
      match assembleUnpatched fuel T E with
      | .done buf => patchHeader buf (pageBase E.stub_raw_addr)
          (pageLen E.stub_raw_addr T.stub_raw.length (pageBase E.stub_raw_addr))
      | .fault => .fault
      | .timeout => .timeout := by
  unfold assemble assembleUnpatched patchHeader
  cases b85tobin E.tab1 fuel (stubbufInit T.stub_len) 0 0 with
  | done s =>
    cases copyStub T.stub_raw T.stub_len 0 s.mem with
    | done buf => rfl
    | fault => rfl
    | timeout => rfl
  | fault => rfl
  | timeout => rfl

/-- The frame of the two stores. -/
theorem patchHeader_frame (buf : List Nat) (base len : Nat) (hlen : 0x15 ≤ buf.length) :
    ∃ buf', patchHeader buf base len = .done buf' ∧ buf'.length = buf.length ∧
      ∀ a, buf'[a]? =
        if 0x11 ≤ a ∧ a < 0x15 then some (len % 2 ^ 32 / 256 ^ (a - 0x11) % 256)
        else if 0x08 ≤ a ∧ a < 0x10 then some (base % 2 ^ 64 / 256 ^ (a - 0x08) % 256)
        else buf[a]? := by
  refine ⟨writeLE 4 (writeLE 8 buf 0x08 (base % 2 ^ 64)) 0x11 (len % 2 ^ 32), ?_, ?_, ?_⟩
  · simp only [patchHeader, store, if_pos (show 0x08 + 8 ≤ buf.length by omega),
      length_writeLE, if_pos (show 0x11 + 4 ≤ buf.length by omega)]
  · rw [length_writeLE, length_writeLE]
  · intro a
    rw [getElem?_writeLE, getElem?_writeLE, length_writeLE]
    by_cases h1 : 0x11 ≤ a ∧ a < 0x15
    · rw [if_pos (by omega), if_pos h1]
    · rw [if_neg (by omega), if_neg h1]
      by_cases h2 : 0x08 ≤ a ∧ a < 0x10
      · rw [if_pos (by omega), if_pos h2]
      · rw [if_neg (by omega), if_neg h2]

theorem assembleUnpatched_spec (fuel : Nat) (T : Template) (E : Env) (h18 : 18 ≤ T.stub_len)
    (hlen : T.stub_len ≤ T.stub_raw.length) (hfuel : 86 ≤ fuel) :
    ∃ pre, assembleUnpatched fuel T E = .done pre ∧ pre.length = 68 + T.stub_len ∧
      ∀ a, pre[a]? =
        if 68 ≤ a ∧ a < 68 + T.stub_len then some (T.stub_raw.getD (a - 68) 0 % 256)
        else if a < 68 then prologueBytes[a]?
        else none := by
  obtain ⟨m1, d1, d2, d3⟩ := b85tobin_stubbuf E.tab1 fuel T.stub_len h18 hfuel
  obtain ⟨m2, c1, c2, c3⟩ := copyStub_spec T.stub_raw T.stub_len 0 m1 (by omega) (by omega)
  refine ⟨m2, ?_, by rw [c2, d2], ?_⟩
  · simp only [assembleUnpatched, d1, c1]
  · intro a
    rw [c3 a, d3 a]
    by_cases h3 : 68 ≤ a ∧ a < 68 + T.stub_len
    · rw [if_pos (by omega), if_pos h3]
    · rw [if_neg (by omega), if_neg h3]
      by_cases h4 : a < 68
      · rw [if_pos h4, if_pos h4]
      · rw [if_neg h4, if_neg h4]
        exact List.getElem?_eq_none (by rw [length_stubbufInit]; omega)

theorem length_decodedBytes_map (segs : List (Nat × Group)) :
    (decodedBytes (segs.map Prod.snd)).length = 4 * segs.length := by
  rw [length_decodedBytes, List.length_map]

theorem getElem?_overwrite (D l : List Nat) (a : Nat) :
    (D ++ l.drop D.length)[a]? = if a < D.length then D[a]? else l[a]? := by
  by_cases ha : a < D.length
  · rw [if_pos ha, List.getElem?_append_left ha]
  · rw [if_neg ha, List.getElem?_append_right (by omega), List.getElem?_drop]
    congr 1; omega

/-- The in-place decoding of a well-formed text at the start of a memory object, in closed
form: the decoded bytes, then what the object held from offset `4 * N` on. -/
theorem b85tobin_in_place (t0 : Nat → Nat) (segs : List (Nat × Group)) (m fuel : Nat)
    (rest : List Nat) (hvalid : ∀ sg ∈ segs, sg.2.Valid)
    (hfuel : (encodedText segs m).length ≤ fuel) :
    b85tobin t0 fuel (encodedText segs m ++ rest) 0 0 =
      .done ⟨decodedBytes (segs.map Prod.snd) ++
          ((encodedText segs m).drop (4 * segs.length) ++ rest),
        4 * segs.length, (encodedText segs m).length - 1⟩ := by
  have hge := length_encodedText_ge segs m
  have hD := length_decodedBytes_map segs
  obtain ⟨mem', h1, h2, h3⟩ := decodeLoop_encodedText t0 segs m fuel
    (encodedText segs m ++ rest) 0 0 hvalid
    (by intro i hi; rw [Nat.zero_add, List.getElem?_append_left hi])
    (Or.inl (le_refl 0)) (by rw [List.length_append]; omega) hfuel
  have hmem : mem' = decodedBytes (segs.map Prod.snd) ++
      ((encodedText segs m).drop (4 * segs.length) ++ rest) := by
    rw [← List.drop_append_of_le_length (by omega), ← hD]
    apply List.ext_getElem?
    intro a
    rw [h3 a, getElem?_overwrite, hD]
    by_cases ha : a < 4 * segs.length
    · rw [if_pos (by omega), if_pos ha, Nat.sub_zero]
    · rw [if_neg (by omega), if_neg ha]
  rw [b85tobin, h1, hmem]
  simp

theorem take_decoded_append (segs : List (Nat × Group)) (tail : List Nat) :
    (decodedBytes (segs.map Prod.snd) ++ tail).take (4 * segs.length) =
      decodedBytes (segs.map Prod.snd) := by
  rw [← length_decodedBytes_map segs, List.take_left']
  rfl

theorem decodeSpec_zero (t : List Nat) : decodeSpec (0 :: t) = decodeSpec t := by
  conv_lhs => unfold decodeSpec
  simp

theorem decodeSpec_sentinel (t : List Nat) : decodeSpec (93 :: t) = [] := by
  unfold decodeSpec
  simp

theorem decodeSpec_group (c c1 c2 c3 c4 : Nat) (t : List Nat) (h0 : c ≠ 0) (h93 : c ≠ 93) :
    decodeSpec (c :: c1 :: c2 :: c3 :: c4 :: t) =
      beBytes ((⟨c, c1, c2, c3, c4⟩ : Group).value % 2 ^ 32) ++ decodeSpec t := by
  rw [decodeSpec, if_neg h0, if_neg h93]
  congr 2
  simp only [List.foldl, Group.value]
  ring_nf

theorem decodeSpec_replicate (n : Nat) (l : List Nat) :
    decodeSpec (List.replicate n 0 ++ l) = decodeSpec l := by
  induction n with
  | zero => rfl
  | succ n ih => rw [List.replicate_succ, List.cons_append, decodeSpec_zero, ih]

theorem decodeSpec_encodedText (segs : List (Nat × Group)) (m : Nat) (rest : List Nat)
    (hvalid : ∀ sg ∈ segs, sg.2.Valid) :
    decodeSpec (encodedText segs m ++ rest) = decodedBytes (segs.map Prod.snd) := by
  induction segs with
  | nil =>
    rw [encodedText, List.append_assoc, decodeSpec_replicate]
    exact decodeSpec_sentinel _
  | cons sg segs ih =>
    have hg : sg.2.Valid := hvalid sg (by simp)
    obtain ⟨-, -, hne0, hne93⟩ :=
      alphabet_facts (fun _ => 0) sg.2.c0 (hg _ (by simp [Group.chars]))
    rw [encodedText, List.append_assoc, decodeSpec_replicate]
    show decodeSpec (sg.2.c0 :: sg.2.c1 :: sg.2.c2 :: sg.2.c3 :: sg.2.c4 ::
      (encodedText segs m ++ rest)) = _
    rw [decodeSpec_group _ _ _ _ _ _ hne0 hne93, ih (fun s hs => hvalid s (by simp [hs]))]
    rfl

theorem afterGroups_encodedText (t0 : Nat → Nat) : ∀ (k : Nat) (segs : List (Nat × Group))
    (m fuel : Nat) (mem : List Nat) (p src : Nat),
    k ≤ segs.length →
    (∀ sg ∈ segs, sg.2.Valid) →
    (∀ i, i < (encodedText segs m).length → mem[src + i]? = (encodedText segs m)[i]?) →
    (p ≤ src ∨ src + (encodedText segs m).length ≤ p) →
    p + 4 * segs.length ≤ mem.length →
    (encodedText segs m).length ≤ fuel →
    ∃ memk, afterGroups (digittobin t0) fuel k ⟨mem, p, src⟩ =
        .done ⟨memk, p + 4 * k, src + consumed segs k⟩ ∧
      memk.length = mem.length ∧
      (∀ a, memk[a]? = if p ≤ a ∧ a < p + 4 * k
        then (decodedBytes ((segs.take k).map Prod.snd))[a - p]? else mem[a]?) ∧
      5 * k ≤ consumed segs k ∧ consumed segs k < (encodedText segs m).length ∧
      decodeLoop (digittobin t0) fuel ⟨mem, p, src⟩ =
        decodeLoop (digittobin t0) (fuel - k) ⟨memk, p + 4 * k, src + consumed segs k⟩ := by
  intro k
  induction k with
  | zero =>
    intro segs m fuel mem p src _ _ _ _ _ _
    have hc : consumed segs 0 = 0 := by cases segs <;> rfl
    have ha : afterGroups (digittobin t0) fuel 0 ⟨mem, p, src⟩ = .done ⟨mem, p, src⟩ := by
      cases fuel <;> rfl
    refine ⟨mem, ?_, rfl, ?_, ?_, ?_, ?_⟩
    · rw [ha, hc]; rfl
    · intro a
      rw [if_neg (by omega)]
    · omega
    · rw [hc]; exact length_encodedText_pos segs m
    · rw [hc]; rfl
  | succ k ih =>
    intro segs m fuel mem p src hk hvalid htxt hpos hp hfuel
    cases segs with
    | nil => simp at hk
    | cons sg segs =>
    have hlen := length_encodedText_cons sg segs m
    have hrest := length_encodedText_pos segs m
    rw [hlen] at htxt hfuel hpos
    obtain ⟨f, rfl⟩ : ∃ f, fuel = f + 1 := ⟨fuel - 1, by omega⟩
    have hg : sg.2.Valid := hvalid sg (by simp)
    have hz : ∀ i, i < sg.1 → mem[src + i]? = some 0 := by
      intro i hi
      rw [htxt i (by omega)]
      simp [encodedText, List.getElem?_append_left, hi]
    have hgr : ∀ i, i < 5 → mem[src + sg.1 + i]? = sg.2.chars[i]? := by
      intro i hi
      rw [Nat.add_assoc, htxt (sg.1 + i) (by omega)]
      simp only [encodedText]
      rw [List.getElem?_append_right (by simp),
        List.getElem?_append_left (by simpa [Group.chars] using hi)]
      simp
    have hrs : ∀ i, i < (encodedText segs m).length →
        mem[src + sg.1 + 5 + i]? = (encodedText segs m)[i]? := by
      intro i hi
      rw [show src + sg.1 + 5 + i = src + (sg.1 + 5 + i) by omega,
        htxt (sg.1 + 5 + i) (by omega)]
      simp only [encodedText]
      rw [List.getElem?_append_right (by simp; omega),
        List.getElem?_append_right (by simp [Group.chars]; omega)]
      congr 1
      simp [Group.chars]; omega
    have hc0 : mem[src + sg.1]? = some sg.2.c0 := by
      have := hgr 0 (by norm_num)
      simpa [Group.chars] using this
    obtain ⟨-, -, hne0, hne93⟩ := alphabet_facts t0 sg.2.c0 (hg _ (by simp [Group.chars]))
    have hskip := skipNul_spec mem sg.2.c0 hne0 sg.1 (f + 1) src hz hc0 (by omega)
    simp only [List.length_cons] at hp hk
    have hgrp := decodeGroup_spec t0 sg.2 hg mem p (src + sg.1) hgr (by omega)
    have hw := fun a => getElem?_writeLE_swapped mem p _ a (value_mod_lt sg.2)
      (show p + 4 ≤ mem.length by omega)
    obtain ⟨memk, hrun, hl, hmem, h5, hcl, hloop⟩ := ih segs m f
      (writeLE 4 mem p (swapped (sg.2.value % 2 ^ 32)))
      (p + 4) (src + sg.1 + 5) (by omega) (fun s hs => hvalid s (by simp [hs]))
      (by
        intro i hi
        rw [hw, ← hrs i hi]
        have : ¬ (p ≤ src + sg.1 + 5 + i ∧ src + sg.1 + 5 + i < p + 4) := by omega
        rw [if_neg this])
      (by omega) (by rw [length_writeLE]; omega) (by omega)
    have hcons : consumed (sg :: segs) (k + 1) = sg.1 + 5 + consumed segs k := rfl
    have e1 : p + 4 + 4 * k = p + 4 * (k + 1) := by omega
    have e2 : src + sg.1 + 5 + consumed segs k = src + consumed (sg :: segs) (k + 1) := by
      rw [hcons]; omega
    rw [e1, e2] at hrun hloop
    refine ⟨memk, ?_, ?_, ?_, ?_, ?_, ?_⟩
    · simp only [afterGroups, hskip, List.getD_eq_getElem?_getD, hc0, Option.getD_some,
        if_neg hne93, hgrp, hrun]
    · rw [hl, length_writeLE]
    · intro a
      rw [hmem a, hw a]
      simp only [List.take_succ_cons, List.map_cons, decodedBytes]
      by_cases h1 : p ≤ a ∧ a < p + 4
      · have h2 : ¬ (p + 4 ≤ a ∧ a < p + 4 + 4 * k) := by omega
        have h3 : p ≤ a ∧ a < p + 4 * (k + 1) := by omega
        rw [if_neg h2, if_pos h1, if_pos h3,
          List.getElem?_append_left (by simp [beBytes]; omega)]
      · by_cases h2 : p + 4 ≤ a ∧ a < p + 4 + 4 * k
        · have h3 : p ≤ a ∧ a < p + 4 * (k + 1) := by omega
          rw [if_pos h2, if_pos h3, List.getElem?_append_right (by simp [beBytes]; omega)]
          congr 1
        · have h3 : ¬ (p ≤ a ∧ a < p + 4 * (k + 1)) := by omega
          rw [if_neg h2, if_neg h1, if_neg h3]
    · rw [hcons]; omega
    · rw [hcons, hlen]; omega
    · rw [Nat.add_sub_add_right, ← hloop]
      simp only [decodeLoop, hskip, List.getD_eq_getElem?_getD, hc0, Option.getD_some,
        if_neg hne93, hgrp]

/-- The decoding of a well-formed text into a separate buffer `out` behind the storage of the
text, in closed form. -/
theorem b85tobin_separate (t0 : Nat → Nat) (segs : List (Nat × Group)) (m fuel : Nat)
    (rest out : List Nat) (hvalid : ∀ sg ∈ segs, sg.2.Valid)
    (hfuel : (encodedText segs m).length ≤ fuel) (hout : 4 * segs.length ≤ out.length) :
    b85tobin t0 fuel (encodedText segs m ++ rest ++ out) (encodedText segs m ++ rest).length 0 =
      .done ⟨encodedText segs m ++ rest ++
          (decodedBytes (segs.map Prod.snd) ++ out.drop (4 * segs.length)),
        (encodedText segs m ++ rest).length + 4 * segs.length,
        (encodedText segs m).length - 1⟩ := by
  have hD := length_decodedBytes_map segs
  obtain ⟨mem', h1, h2, h3⟩ := decodeLoop_encodedText t0 segs m fuel
    (encodedText segs m ++ rest ++ out) (encodedText segs m ++ rest).length 0 hvalid
    (by
      intro i hi
      rw [Nat.zero_add, List.append_assoc, List.getElem?_append_left hi])
    (Or.inr (by simp)) (by simp only [List.length_append]; omega) hfuel
  have hmem : mem' = encodedText segs m ++ rest ++
      (decodedBytes (segs.map Prod.snd) ++ out.drop (4 * segs.length)) := by
    apply List.ext_getElem?
    intro a
    rw [h3 a]
    by_cases ha : a < (encodedText segs m ++ rest).length
    · rw [if_neg (by omega), List.getElem?_append_left ha, List.getElem?_append_left ha]
    · rw [List.getElem?_append_right (by omega), List.getElem?_append_right (by omega), ← hD,
        getElem?_overwrite, hD]
      by_cases hb : a < (encodedText segs m ++ rest).length + 4 * segs.length
      · rw [if_pos (by omega), if_pos (by omega)]
      · rw [if_neg (by omega), if_neg (by omega)]
  rw [b85tobin, h1, hmem]
  simp

theorem rank_cchar (d : Nat) (hd : d < 85) :
    rank (cchar b85 d) = d ∧ cchar b85 d ∈ cbytes b85 := by
  have h : ∀ k : Fin 85, rank (cchar b85 k) = k ∧ cchar b85 k ∈ cbytes b85 := by decide
  exact h ⟨d, hd⟩

theorem rank_injective (c d : Nat) (hc : c ∈ cbytes b85) (hd : d ∈ cbytes b85)
    (h : rank c = rank d) : c = d := by
  obtain ⟨j, rfl⟩ := alphabet_cases c hc
  obtain ⟨k, rfl⟩ := alphabet_cases d hd
  rw [(rank_cchar j j.isLt).1, (rank_cchar k k.isLt).1] at h
  rw [h]

theorem group_ranks_lt (g : Group) (hg : g.Valid) :
    rank g.c0 < 85 ∧ rank g.c1 < 85 ∧ rank g.c2 < 85 ∧ rank g.c3 < 85 ∧ rank g.c4 < 85 :=
  ⟨(alphabet_facts (fun _ => 0) _ (hg _ (by simp [Group.chars]))).2.1,
    (alphabet_facts (fun _ => 0) _ (hg _ (by simp [Group.chars]))).2.1,
    (alphabet_facts (fun _ => 0) _ (hg _ (by simp [Group.chars]))).2.1,
    (alphabet_facts (fun _ => 0) _ (hg _ (by simp [Group.chars]))).2.1,
    (alphabet_facts (fun _ => 0) _ (hg _ (by simp [Group.chars]))).2.1⟩

theorem value_injective (g1 g2 : Group) (h1 : g1.Valid) (h2 : g2.Valid)
    (h : g1.value = g2.value) : g1 = g2 := by
  obtain ⟨a0, a1, a2, a3, a4⟩ := group_ranks_lt g1 h1
  obtain ⟨b0, b1, b2, b3, b4⟩ := group_ranks_lt g2 h2
  simp only [Group.value] at h
  have e0 : rank g1.c0 = rank g2.c0 := by omega
  have e1 : rank g1.c1 = rank g2.c1 := by omega
  have e2 : rank g1.c2 = rank g2.c2 := by omega
  have e3 : rank g1.c3 = rank g2.c3 := by omega
  have e4 : rank g1.c4 = rank g2.c4 := by omega
  have m1 : ∀ c ∈ g1.chars, c ∈ cbytes b85 := h1
  have m2 : ∀ c ∈ g2.chars, c ∈ cbytes b85 := h2
  simp only [Group.chars, List.mem_cons, List.mem_singleton, forall_eq_or_imp, forall_eq,
    List.not_mem_nil, false_implies, implies_true, and_true] at m1 m2
  cases g1
  cases g2
  simp only [Group.mk.injEq]
  exact ⟨rank_injective _ _ m1.1 m2.1 e0, rank_injective _ _ m1.2.1 m2.2.1 e1,
    rank_injective _ _ m1.2.2.1 m2.2.2.1 e2, rank_injective _ _ m1.2.2.2.1 m2.2.2.2.1 e3,
    rank_injective _ _ m1.2.2.2.2 m2.2.2.2.2 e4⟩

theorem value_lt (g : Group) (hg : g.Valid) : g.value < 85 ^ 5 := by
  obtain ⟨a0, a1, a2, a3, a4⟩ := group_ranks_lt g hg
  simp only [Group.value]
  omega

theorem beBytes_injective (v w : Nat) (hv : v < 2 ^ 32) (hw : w < 2 ^ 32)
    (h : beBytes v = beBytes w) : v = w := by
  simp only [beBytes, List.cons.injEq, and_true] at h
  omega

/-- A valid group with a given value below `85 ^ 5`. -/
theorem exists_group_of_value (v : Nat) (hv : v < 85 ^ 5) :
    ∃ g : Group, g.Valid ∧ g.value = v := by
  have d0 := rank_cchar (v / 85 ^ 4) (by omega)
  have d1 := rank_cchar (v / 85 ^ 3 % 85) (by omega)
  have d2 := rank_cchar (v / 85 ^ 2 % 85) (by omega)
  have d3 := rank_cchar (v / 85 % 85) (by omega)
  have d4 := rank_cchar (v % 85) (by omega)
  refine ⟨⟨cchar b85 (v / 85 ^ 4), cchar b85 (v / 85 ^ 3 % 85), cchar b85 (v / 85 ^ 2 % 85),
    cchar b85 (v / 85 % 85), cchar b85 (v % 85)⟩, ?_, ?_⟩
  · intro c hc
    simp only [Group.chars, List.mem_cons, List.mem_singleton, List.not_mem_nil, or_false] at hc
    rcases hc with rfl | rfl | rfl | rfl | rfl
    · exact d0.2
    · exact d1.2
    · exact d2.2
    · exact d3.2
    · exact d4.2
  · simp only [Group.value, d0.1, d1.1, d2.1, d3.1, d4.1]
    omega

/-- The group step on a memory object that holds just the group. -/
theorem decodeGroup_chars (t0 : Nat → Nat) (g : Group) (hg : g.Valid) :
    decodeGroup (digittobin t0) ⟨g.chars, 0, 0⟩ =
      .done ⟨beBytes (g.value % 2 ^ 32) ++ [g.c4], 4, 5⟩ := by
  rw [decodeGroup_spec t0 g hg g.chars 0 0 (by intro i _; rw [Nat.zero_add])
    (by simp [Group.chars])]
  have e : writeLE 4 g.chars 0 (swapped (g.value % 2 ^ 32)) =
      beBytes (g.value % 2 ^ 32) ++ g.chars.drop (beBytes (g.value % 2 ^ 32)).length := by
    apply List.ext_getElem?
    intro a
    rw [getElem?_writeLE_swapped _ _ _ _ (value_mod_lt g) (by simp [Group.chars]),
      getElem?_overwrite]
    have hl : (beBytes (g.value % 2 ^ 32)).length = 4 := rfl
    rw [hl]
    by_cases ha : a < 4
    · rw [if_pos (by omega), if_pos ha, Nat.sub_zero]
    · rw [if_neg (by omega), if_neg ha]
  rw [e]
  rfl

/-! ## The claims -/

/-- C1: for a group of 5 alphabet symbols `c0..c4` at the read pointer, the body of the loop of
`b85tobin` (lines 16-21) stores at `p, p+1, p+2, p+3` the bytes of
`v = (rank c0 * 85^4 + rank c1 * 85^3 + rank c2 * 85^2 + rank c3 * 85 + rank c4) mod 2^32`
from the most to the least significant, advances `p` by 4 and `src` by 5 and changes no
other byte. The little-endian word read back at `p` is the byte swap of `v`, and when the
base-85 value is below `2^32` the four bytes are its big-endian representation. The table is
the one built from any uninitialised content `t0`. -/
theorem decodeGroup_stores_big_endian (t0 : Nat → Nat) (g : Group) (mem : List Nat)
    (p src : Nat) (hg : g.Valid) (hsrc : ∀ i, i < 5 → mem[src + i]? = g.chars[i]?)
    (hp : p + 4 ≤ mem.length) :
    ∃ mem', decodeGroup (digittobin t0) ⟨mem, p, src⟩ = .done ⟨mem', p + 4, src + 5⟩ ∧
      mem'.length = mem.length ∧
      mem'[p]? = some (g.value % 2 ^ 32 / 2 ^ 24 % 256) ∧
      mem'[p + 1]? = some (g.value % 2 ^ 32 / 2 ^ 16 % 256) ∧
      mem'[p + 2]? = some (g.value % 2 ^ 32 / 2 ^ 8 % 256) ∧
      mem'[p + 3]? = some (g.value % 2 ^ 32 % 256) ∧
      (∀ a, a < p ∨ p + 4 ≤ a → mem'[a]? = mem[a]?) ∧
      readLE 4 mem' p =
        g.value % 2 ^ 32 % 256 * 2 ^ 24 + g.value % 2 ^ 32 / 2 ^ 8 % 256 * 2 ^ 16 +
          g.value % 2 ^ 32 / 2 ^ 16 % 256 * 2 ^ 8 + g.value % 2 ^ 32 / 2 ^ 24 % 256 ∧
      (g.value < 2 ^ 32 →
        mem'.getD p 0 * 2 ^ 24 + mem'.getD (p + 1) 0 * 2 ^ 16 + mem'.getD (p + 2) 0 * 2 ^ 8 +
          mem'.getD (p + 3) 0 = g.value) := by
  have hw := fun a => getElem?_writeLE_swapped mem p _ a (value_mod_lt g) hp
  have b0 := hw p
  have b1 := hw (p + 1)
  have b2 := hw (p + 2)
  have b3 := hw (p + 3)
  rw [if_pos (by omega)] at b0 b1 b2 b3
  simp only [Nat.sub_self, Nat.add_sub_cancel_left, beBytes, List.getElem?_cons_zero,
    List.getElem?_cons_succ] at b0 b1 b2 b3
  refine ⟨_, decodeGroup_spec t0 g hg mem p src hsrc hp, length_writeLE _ _ _ _, b0, b1, b2, b3,
    ?_, ?_, ?_⟩
  · intro a ha
    rw [hw a, if_neg (by omega)]
  · simp only [readLE, List.getD_eq_getElem?_getD, b0, b1, b2, b3, Option.getD_some]
    omega
  · intro hlt
    simp only [List.getD_eq_getElem?_getD, b0, b1, b2, b3, Option.getD_some]
    omega

/-- The group `QMd~L` alone in memory: the first and the last stored byte. -/
theorem decodeGroup_stores_big_endian_witness :
    ∃ mem', decodeGroup (digittobin fun _ => 0) ⟨[81, 77, 100, 126, 76], 0, 0⟩ =
        .done ⟨mem', 4, 5⟩ ∧ mem'[0]? = some 0x51 ∧ mem'[3]? = some 0 := by
  obtain ⟨mem', h, -, h0, -, -, h3, -⟩ := decodeGroup_stores_big_endian (fun _ => 0)
    ⟨81, 77, 100, 126, 76⟩ [81, 77, 100, 126, 76] 0 0 (by decide) (by decide) (by decide)
  exact ⟨mem', h, h0, h3⟩

/-- C2: for a text of `N` groups of 5 alphabet symbols followed by the sentinel `]`, lying at
`src` in a memory object whose output window does not run into unread text (in place,
`dest ≤ src`, or behind the text), `b85tobin` returns with the write pointer at
`dest + 4 * N`: exactly `4 * N` bytes are produced, they are the bytes of the groups, and no
byte outside the window `dest .. dest + 4 * N - 1` changes. For `N = 0` (the sentinel alone)
the memory is unchanged. Any budget of one step a character is enough. -/
theorem b85tobin_output_length (t0 : Nat → Nat) (gs : List Group) (fuel : Nat)
    (mem : List Nat) (dest src : Nat) (hvalid : ∀ g ∈ gs, g.Valid)
    (htxt : ∀ i, i < 5 * gs.length + 1 → mem[src + i]? = (groupsText gs)[i]?)
    (halias : dest ≤ src ∨ src + (5 * gs.length + 1) ≤ dest)
    (hdest : dest + 4 * gs.length ≤ mem.length)
    (hfuel : 5 * gs.length + 1 ≤ fuel) :
    ∃ mem', b85tobin t0 fuel mem dest src =
        .done ⟨mem', dest + 4 * gs.length, src + 5 * gs.length⟩ ∧
      mem'.length = mem.length ∧
      (∀ a, a < dest ∨ dest + 4 * gs.length ≤ a → mem'[a]? = mem[a]?) ∧
      (∀ a, dest ≤ a → a < dest + 4 * gs.length → mem'[a]? = (decodedBytes gs)[a - dest]?) ∧
      (decodedBytes gs).length = 4 * gs.length ∧
      (gs = [] → mem' = mem) := by
  obtain ⟨mem', h1, h2, h3⟩ :=
    b85tobin_groupsText t0 gs fuel mem dest src hvalid htxt halias hdest hfuel
  refine ⟨mem', h1, h2, ?_, ?_, length_decodedBytes gs, ?_⟩
  · intro a ha
    rw [h3 a, if_neg (by omega)]
  · intro a ha hb
    rw [h3 a, if_pos ⟨ha, hb⟩]
  · intro hnil
    subst hnil
    apply List.ext_getElem?
    intro a
    rw [h3 a, if_neg (by simp)]

/-- The text `QMd~L]` decoded in place: one group, 4 bytes. -/
theorem b85tobin_output_length_witness :
    ∃ mem', b85tobin (fun _ => 0) 6 [81, 77, 100, 126, 76, 93] 0 0 = .done ⟨mem', 4, 5⟩ ∧
      mem'.length = 6 := by
  obtain ⟨mem', h, hl, -⟩ := b85tobin_output_length (fun _ => 0) [⟨81, 77, 100, 126, 76⟩] 6
    [81, 77, 100, 126, 76, 93] 0 0 (by decide) (by decide) (by decide) (by decide) (by decide)
  exact ⟨mem', h, hl⟩

/-- C3: the alphabet `b85` has exactly 85 pairwise distinct characters, and the table built by
the first loop of `b85tobin`, from any uninitialised content `t0`, maps the `k`-th character
to `k` for every `k` in `0..84`: no later write overwrites an earlier one, and the mapping
from symbols to ranks is injective on the alphabet and onto `0..84`. -/
theorem alphabet_rank_injective (t0 : Nat → Nat) :
    (cbytes b85).length = 85 ∧ (cbytes b85).Nodup ∧
      (∀ k : Fin 85, (cbytes b85)[k.val]? = some (cchar b85 k)) ∧
      (∀ k : Fin 85, digittobin t0 (cchar b85 k) = k) ∧
      (∀ j k : Fin 85, cchar b85 j = cchar b85 k → j = k) ∧
      (∀ c ∈ cbytes b85, ∀ d ∈ cbytes b85, digittobin t0 c = digittobin t0 d → c = d) ∧
      (∀ c ∈ cbytes b85, digittobin t0 c < 85) ∧
      (∀ r : Fin 85, ∃ c ∈ cbytes b85, digittobin t0 c = r) := by
  have htab : ∀ k : Fin 85, digittobin t0 (cchar b85 k) = k := by
    intro k; fin_cases k <;> rfl
  have hget : ∀ k : Fin 85, (cbytes b85)[k.val]? = some (cchar b85 k) := by
    intro k; fin_cases k <;> rfl
  have hmem : ∀ k : Fin 85, cchar b85 k ∈ cbytes b85 := fun k =>
    List.mem_iff_getElem?.2 ⟨_, hget k⟩
  have hinj : ∀ j k : Fin 85, cchar b85 j = cchar b85 k → j = k := by
    intro j k h
    have := htab j
    rw [h, htab k] at this
    exact (Fin.ext this).symm
  refine ⟨by decide, by decide, hget, htab, hinj, ?_, ?_, ?_⟩
  · intro c hc d hd h
    obtain ⟨j, rfl⟩ := alphabet_cases c hc
    obtain ⟨k, rfl⟩ := alphabet_cases d hd
    rw [htab j, htab k] at h
    rw [Fin.ext h]
  · intro c hc
    obtain ⟨j, rfl⟩ := alphabet_cases c hc
    rw [htab j]; exact j.isLt
  · intro r
    exact ⟨cchar b85 r, hmem r, htab r⟩

/-- C4: the text that initialises `stubbuf` in `__libc_start_main` is valid base-85: 86
characters, namely 17 groups of 5 alphabet symbols followed by the sentinel `]`. From any
uninitialised table and with any budget of at least 86 steps `b85tobin` decodes it in place,
alone or inside `stubbuf`, to exactly 68 bytes, the first 8 of which are
`51 B8 0B 00 00 00 48 BF`; the fields at offset `0x08`
(8 bytes) and `0x11` (4 bytes) and the entry at `0x1c` lie inside these 68 bytes. -/
theorem prologue_is_valid_base85 :
    (cbytes prologue).length = 86 ∧
      (toGroups (cbytes prologue)).length = 17 ∧
      (∀ g ∈ toGroups (cbytes prologue), g.Valid) ∧
      cbytes prologue = groupsText (toGroups (cbytes prologue)) ∧
      prologueBytes.length = 68 ∧
      prologueBytes.take 8 = [0x51, 0xB8, 0x0B, 0x00, 0x00, 0x00, 0x48, 0xBF] ∧
      (∀ (t0 : Nat → Nat) (fuel : Nat), ∃ mem',
        b85tobin t0 (86 + fuel) (cbytes prologue) 0 0 = .done ⟨mem', 68, 85⟩ ∧
        mem'.length = 86 ∧ mem'.take 68 = prologueBytes) ∧
      (∀ (t0 : Nat → Nat) (fuel n : Nat), ∃ mem',
        b85tobin t0 (86 + fuel) (stubbufInit (18 + n)) 0 0 = .done ⟨mem', 68, 85⟩ ∧
        mem'.take 68 = prologueBytes) ∧
      0x08 + 8 ≤ prologueBytes.length ∧ 0x11 + 4 ≤ prologueBytes.length ∧
      0x1c < prologueBytes.length := by
  have hv : ∀ g ∈ toGroups (cbytes prologue), g.Valid := by decide
  have ht : cbytes prologue = groupsText (toGroups (cbytes prologue)) := by decide
  have hb : prologueBytes.length = 68 := by decide
  have htake : ∀ mem' : List Nat,
      (∀ a, a < 68 → mem'[a]? = prologueBytes[a]?) → mem'.take 68 = prologueBytes := by
    intro mem' h
    apply List.ext_getElem?
    intro a
    rw [List.getElem?_take]
    by_cases ha : a < 68
    · rw [if_pos ha, h a ha]
    · rw [if_neg ha, List.getElem?_eq_none (by rw [hb]; omega)]
  refine ⟨by decide, by decide, hv, ht, hb, by decide, ?_, ?_, by decide, by decide, by decide⟩
  swap
  · intro t0 fuel n
    obtain ⟨mem', h1, -, h3⟩ := b85tobin_stubbuf t0 (86 + fuel) (18 + n) (by omega) (by omega)
    exact ⟨mem', h1, htake mem' fun a ha => by rw [h3 a, if_pos ha]⟩
  intro t0 fuel
  obtain ⟨mem', h1, h2, h3⟩ := b85tobin_groupsText t0 (toGroups (cbytes prologue)) (86 + fuel)
    (cbytes prologue) 0 0 hv (by intro i _; rw [Nat.zero_add, ← ht]) (by omega) (by decide)
    (by have : (toGroups (cbytes prologue)).length = 17 := by decide
        omega)
  refine ⟨mem', h1, h2, htake mem' fun a ha => ?_⟩
  rw [h3 a, if_pos (by constructor; omega; exact ha)]; rfl

/-- C5: the page arithmetic of `__libc_start_main`. For a 64-bit address `a` and a span `s`
whose rounded length does not overflow 64 bits, `base = a & 0xFFFFFFFFFFFFF000` is at most `a`
and a multiple of 4096, and `len = (((a + s - base) + 0xFFF) >> 12) << 12` is a multiple of
4096 and at least `s`. -/
theorem page_alignment (a s : Nat) (ha : a < 2 ^ 64)
    (hs : a - pageBase a + s + 0xFFF < 2 ^ 64) :
    pageBase a ≤ a ∧ pageBase a % 4096 = 0 ∧
      pageLen a s (pageBase a) % 4096 = 0 ∧ s ≤ pageLen a s (pageBase a) := by
  obtain ⟨h1, h2, h3, h4, -⟩ := page_region a s ha hs
  exact ⟨h1, h2, h3, h4⟩

/-- The region of 5000 bytes at `0x401234`. -/
theorem page_alignment_witness :
    pageBase 0x401234 ≤ 0x401234 ∧ pageBase 0x401234 % 4096 = 0 ∧
      pageLen 0x401234 5000 (pageBase 0x401234) % 4096 = 0 ∧
      5000 ≤ pageLen 0x401234 5000 (pageBase 0x401234) :=
  page_alignment 0x401234 5000 (by decide) (by decide)

/-- C6, as amended: in every well-formed instance of the template (the initialiser fits
`stubbuf`, i.e. `18 ≤ stub_len`, the copy loop stays inside `stub_raw`, and the budget covers
the 86 characters of the prologue) the assembly returns, and in the assembled launcher buffer
the 8 bytes at offset `0x08` read as the page base of `stub_raw` and the 4 bytes at offset
`0x11` read as the region length reduced modulo `2^32` (the code stores `(u32) len`); so they
read as the length itself whenever it is below `2^32`. Both are read after both patches: the
second patch does not disturb the first. -/
theorem header_patch_fields (fuel : Nat) (T : Template) (E : Env) (h18 : 18 ≤ T.stub_len)
    (hlen : T.stub_len ≤ T.stub_raw.length) (hfuel : 86 ≤ fuel) :
    ∃ buf, assemble fuel T E = .done buf ∧
      readLE 8 buf 0x08 = pageBase E.stub_raw_addr ∧
      readLE 4 buf 0x11 =
        pageLen E.stub_raw_addr T.stub_raw.length (pageBase E.stub_raw_addr) % 2 ^ 32 ∧
      (pageLen E.stub_raw_addr T.stub_raw.length (pageBase E.stub_raw_addr) < 2 ^ 32 →
        readLE 4 buf 0x11 =
          pageLen E.stub_raw_addr T.stub_raw.length (pageBase E.stub_raw_addr)) := by
  obtain ⟨buf, h1, -, h3, h4, -⟩ := assemble_fields fuel T E h18 hlen hfuel
  exact ⟨buf, h1, h3, h4, fun hlt => by rw [h4, Nat.mod_eq_of_lt hlt]⟩

/-- The fields of the sample instance: base `0x401000`, length one page. -/
theorem header_patch_fields_witness :
    ∃ buf, assemble 86 (sampleTemplate 19) sampleEnv = .done buf ∧
      readLE 8 buf 0x08 = 0x401000 ∧ readLE 4 buf 0x11 = 0x1000 := by
  obtain ⟨buf, h1, h2, h3, -⟩ := header_patch_fields 86 (sampleTemplate 19) sampleEnv
    (by decide) (by decide) (by decide)
  exact ⟨buf, h1, h2, h3⟩

/-- With a `stub_raw` of `2^32` bytes at `0x401000` the region length is `2^32`, stored as
`(u32) len = 0`: the 4 bytes at `0x11` do not read as the computed region length. -/
theorem header_len_field_counterexample :
    ∃ buf, assemble 86 (sampleTemplate (2 ^ 32)) sampleEnv = .done buf ∧
      readLE 4 buf 0x11 ≠ pageLen sampleEnv.stub_raw_addr (sampleTemplate (2 ^ 32)).stub_raw.length
        (pageBase sampleEnv.stub_raw_addr) := by
  have hlen : (sampleTemplate (2 ^ 32)).stub_raw.length = 2 ^ 32 := by
    show (List.replicate (2 ^ 32) 0x90).length = 2 ^ 32
    rw [List.length_replicate]
  obtain ⟨buf, h1, -, -, h4, -⟩ := assemble_fields 86 (sampleTemplate (2 ^ 32)) sampleEnv
    (le_refl 18) (by rw [hlen]; show 18 ≤ 2 ^ 32; norm_num) (le_refl 86)
  refine ⟨buf, h1, ?_⟩
  rw [h4, hlen]
  decide
/-- C7, as amended: the two header fields describe the page-aligned region of the static image
of `stub_raw`. In every well-formed instance whose region length fits in 32 bits,
`[base_field, base_field + length_field)` covers `[stub_raw, stub_raw + sizeof(stub_raw))`,
both fields are multiples of 4096, and the assembled buffer is the same wherever the launcher
buffer is placed. -/
theorem header_fields_cover_static_stub (fuel : Nat) (T : Template) (E : Env)
    (h18 : 18 ≤ T.stub_len) (hlen : T.stub_len ≤ T.stub_raw.length) (hfuel : 86 ≤ fuel)
    (ha : E.stub_raw_addr < 2 ^ 64)
    (hs : E.stub_raw_addr - pageBase E.stub_raw_addr + T.stub_raw.length + 0xFFF < 2 ^ 32) :
    ∃ buf, assemble fuel T E = .done buf ∧
      readLE 8 buf 0x08 ≤ E.stub_raw_addr ∧
      E.stub_raw_addr + T.stub_raw.length ≤ readLE 8 buf 0x08 + readLE 4 buf 0x11 ∧
      readLE 8 buf 0x08 % 4096 = 0 ∧ readLE 4 buf 0x11 % 4096 = 0 ∧
      ∀ A, assemble fuel T { E with stubbuf_addr := A } = .done buf := by
  obtain ⟨buf, h1, -, h3, h4, -⟩ := assemble_fields fuel T E h18 hlen hfuel
  obtain ⟨p1, p2, p3, p4, p5, p6⟩ :=
    page_region E.stub_raw_addr T.stub_raw.length ha (by omega)
  have hlt : pageLen E.stub_raw_addr T.stub_raw.length (pageBase E.stub_raw_addr) < 2 ^ 32 := by
    omega
  rw [Nat.mod_eq_of_lt hlt] at h4
  refine ⟨buf, h1, ?_, ?_, ?_, ?_, fun A => h1⟩
  · rw [h3]; exact p1
  · rw [h3, h4]; exact p5
  · rw [h3]; exact p2
  · rw [h4]; exact p3

/-- In the sample instance the fields cover the 19 bytes of `stub_raw` at `0x401000`. -/
theorem header_fields_cover_static_stub_witness :
    ∃ buf, assemble 86 (sampleTemplate 19) sampleEnv = .done buf ∧
      readLE 8 buf 0x08 ≤ 0x401000 ∧ 0x401000 + 19 ≤ readLE 8 buf 0x08 + readLE 4 buf 0x11 := by
  obtain ⟨buf, h1, h2, h3, -⟩ := header_fields_cover_static_stub 86 (sampleTemplate 19)
    sampleEnv (by decide) (by decide) (by decide) (by decide) (by decide)
  exact ⟨buf, h1, h2, h3⟩

/-- In the sample instance the region described by the two fields does not cover the stub
bytes copied into the launcher buffer at `stubbuf + 68`. -/
theorem header_fields_runtime_counterexample :
    ∃ buf, assemble 86 (sampleTemplate 19) sampleEnv = .done buf ∧
      ¬ (readLE 8 buf 0x08 ≤ sampleEnv.stubbuf_addr + 68 ∧
        sampleEnv.stubbuf_addr + 68 + (sampleTemplate 19).stub_len ≤
          readLE 8 buf 0x08 + readLE 4 buf 0x11) := by
  obtain ⟨buf, h1, -, h3, h4, -⟩ := assemble_fields 86 (sampleTemplate 19) sampleEnv
    (by decide) (by decide) (by decide)
  refine ⟨buf, h1, ?_⟩
  rw [h3, h4]
  decide

/-- C8: in every well-formed instance (the initialiser fits `stubbuf`, the copy loop stays
inside `stub_raw`, the payload starts with well-formed encoded text, the budget covers both
texts) whose launcher buffer lies inside the 64-bit address space, `__libc_start_main` reaches
the call of the stub with `pd.fn_table[0] = A + 0x1c`, where `A` is the address of the launcher
buffer, which is also the address called. That address lies inside the 68-byte prologue of the
launcher buffer, and outside the static image of `stub_raw` whenever the two objects are
disjoint. -/
theorem fn_table_slot0 (fuel : Nat) (T : Template) (E : Env)
    (segs : List (Nat × Group)) (m : Nat) (rest : List Nat)
    (h18 : 18 ≤ T.stub_len) (hlen : T.stub_len ≤ T.stub_raw.length)
    (hvalid : ∀ sg ∈ segs, sg.2.Valid) (hpay : T.payload = encodedText segs m ++ rest)
    (hfuel : 86 ≤ fuel) (hfuel2 : (encodedText segs m).length ≤ fuel)
    (hbuf : E.stubbuf_addr + (68 + T.stub_len) ≤ 2 ^ 64) :
    ∃ inv, __libc_start_main fuel T E = .done inv ∧
      inv.pd.fn_table 0 = E.stubbuf_addr + 0x1c ∧
      inv.entry = E.stubbuf_addr ∧
      E.stubbuf_addr ≤ inv.pd.fn_table 0 ∧
      inv.pd.fn_table 0 < E.stubbuf_addr + 68 ∧
      (E.stubbuf_addr + (68 + T.stub_len) ≤ E.stub_raw_addr ∨
          E.stub_raw_addr + T.stub_raw.length ≤ E.stubbuf_addr →
        ¬ (E.stub_raw_addr ≤ inv.pd.fn_table 0 ∧
          inv.pd.fn_table 0 < E.stub_raw_addr + T.stub_raw.length)) := by
  obtain ⟨buf, pay, -, h⟩ :=
    libc_start_main_spec fuel T E segs m rest h18 hlen hvalid hpay hfuel hfuel2
  have e : (E.stubbuf_addr + 0x1c) % 2 ^ 64 = E.stubbuf_addr + 0x1c :=
    Nat.mod_eq_of_lt (by omega)
  have h0 : Function.update E.pd0.fn_table 0 ((E.stubbuf_addr + 0x1c) % 2 ^ 64) 0 =
      E.stubbuf_addr + 0x1c := by rw [Function.update_same, e]
  obtain ⟨inv, hi, hv, he⟩ : ∃ inv, __libc_start_main fuel T E = .done inv ∧
      inv.pd.fn_table 0 = E.stubbuf_addr + 0x1c ∧ inv.entry = E.stubbuf_addr :=
    ⟨_, h, h0, rfl⟩
  refine ⟨inv, hi, hv, he, ?_, ?_, ?_⟩
  · rw [hv]; omega
  · rw [hv]; omega
  · intro hd
    rw [hv]; omega

/-- In the sample instance slot 0 holds `0x7ffd00001230 + 0x1c`. -/
theorem fn_table_slot0_witness :
    ∃ inv, __libc_start_main 86 (sampleTemplate 19) sampleEnv = .done inv ∧
      inv.pd.fn_table 0 = 0x7ffd0000124c := by
  obtain ⟨inv, h, h0, -⟩ := fn_table_slot0 86 (sampleTemplate 19) sampleEnv [] 0 []
    (by decide) (by decide) (by decide) (by decide) (by decide) (by decide) (by decide)
  exact ⟨inv, h, h0⟩

/-- C9, as amended: in every well-formed instance, whatever the prior content `pd0` of the
storage of `pd`, at the call of the stub `pd.env_id = 2` and `pd.env_flags = 1`, and the two
slots `win[0]` and `win[1]`, which the code never assigns, hold what the storage held
before. -/
theorem descriptor_constants (fuel : Nat) (T : Template) (E : Env)
    (segs : List (Nat × Group)) (m : Nat) (rest : List Nat)
    (h18 : 18 ≤ T.stub_len) (hlen : T.stub_len ≤ T.stub_raw.length)
    (hvalid : ∀ sg ∈ segs, sg.2.Valid) (hpay : T.payload = encodedText segs m ++ rest)
    (hfuel : 86 ≤ fuel) (hfuel2 : (encodedText segs m).length ≤ fuel) :
    ∃ inv, __libc_start_main fuel T E = .done inv ∧
      inv.pd.env_id = 2 ∧ inv.pd.env_flags = 1 ∧
      inv.pd.win 0 = E.pd0.win 0 ∧ inv.pd.win 1 = E.pd0.win 1 := by
  obtain ⟨buf, pay, -, h⟩ :=
    libc_start_main_spec fuel T E segs m rest h18 hlen hvalid hpay hfuel hfuel2
  exact ⟨_, h, rfl, rfl, rfl, rfl⟩

/-- In the sample instance both `win` slots still hold the `9` the stack held. -/
theorem descriptor_constants_witness :
    ∃ inv, __libc_start_main 86 (sampleTemplate 19) sampleEnv = .done inv ∧
      inv.pd.env_id = 2 ∧ inv.pd.env_flags = 1 ∧ inv.pd.win 0 = 9 ∧ inv.pd.win 1 = 9 :=
  descriptor_constants 86 (sampleTemplate 19) sampleEnv [] 0 []
    (by decide) (by decide) (by decide) (by decide) (by decide) (by decide)

/-- In the sample instance the `win` slots are not zero at the call of the stub. -/
theorem descriptor_win_counterexample :
    ∃ inv, __libc_start_main 86 (sampleTemplate 19) sampleEnv = .done inv ∧
      ¬ (inv.pd.win 0 = 0 ∧ inv.pd.win 1 = 0) := by
  obtain ⟨buf, pay, -, h⟩ := libc_start_main_spec 86 (sampleTemplate 19) sampleEnv [] 0 []
    (by decide) (by decide) (by decide) (by decide) (by decide) (by decide)
  refine ⟨_, h, ?_⟩
  show ¬ (sampleEnv.pd0.win 0 = 0 ∧ sampleEnv.pd0.win 1 = 0)
  decide

/-- C10: in every well-formed instance (the initialiser fits `stubbuf`, `stub_len` is at most
`sizeof(stub_raw)`, `stub_raw` consists of bytes) the assembly returns a launcher buffer of
`68 + stub_len` bytes whose bytes at offsets `68 .. 68 + stub_len - 1` are
`stub_raw[0 .. stub_len - 1]` in order: neither the decoding nor the two header patches alter
them. -/
theorem assemble_copies_stub (fuel : Nat) (T : Template) (E : Env)
    (h18 : 18 ≤ T.stub_len) (hlen : T.stub_len ≤ T.stub_raw.length) (hfuel : 86 ≤ fuel)
    (hbytes : ∀ b ∈ T.stub_raw, b < 256) :
    ∃ buf, assemble fuel T E = .done buf ∧ buf.length = 68 + T.stub_len ∧
      (∀ i, i < T.stub_len → buf[68 + i]? = T.stub_raw[i]?) ∧
      buf.drop 68 = T.stub_raw.take T.stub_len := by
  obtain ⟨buf, h1, h2, -, -, h5⟩ := assemble_fields fuel T E h18 hlen hfuel
  have hpt : ∀ i, i < T.stub_len → buf[68 + i]? = T.stub_raw[i]? := by
    intro i hi
    have hi' : i < T.stub_raw.length := by omega
    rw [h5 i hi, List.getD_eq_getElem?_getD, List.getElem?_eq_getElem hi', Option.getD_some,
      Nat.mod_eq_of_lt (hbytes _ (List.getElem_mem hi'))]
  refine ⟨buf, h1, h2, hpt, ?_⟩
  apply List.ext_getElem?
  intro i
  rw [List.getElem?_drop, List.getElem?_take]
  by_cases hi : i < T.stub_len
  · rw [if_pos hi, hpt i hi]
  · rw [if_neg hi, List.getElem?_eq_none (by omega)]

/-- In the sample instance the 18 bytes after the prologue are the copied stub. -/
theorem assemble_copies_stub_witness :
    ∃ buf, assemble 86 (sampleTemplate 19) sampleEnv = .done buf ∧ buf.length = 86 ∧
      buf.drop 68 = List.replicate 18 0x90 := by
  obtain ⟨buf, h1, h2, -, h4⟩ := assemble_copies_stub 86 (sampleTemplate 19) sampleEnv
    (by decide) (by decide) (by decide) (by decide)
  exact ⟨buf, h1, h2, h4⟩

/-- C16: the computed region is the tightest page-aligned cover. For a 64-bit address `a` and
a span `s` without 64-bit overflow, `base` is the greatest multiple of 4096 that is at most
`a` (so `a - base < 4096`), `len` is the least multiple of 4096 that is at least
`(a - base) + s` (so the excess is below 4096, and `len = (a - base) + s` exactly when that
quantity is a multiple of 4096), and `[base, base + len)` contains `[a, a + s)`. -/
theorem page_region_tightest (a s : Nat) (ha : a < 2 ^ 64)
    (hs : a - pageBase a + s + 0xFFF < 2 ^ 64) :
    (pageBase a % 4096 = 0 ∧ pageBase a ≤ a ∧
        (∀ b, b % 4096 = 0 → b ≤ a → b ≤ pageBase a) ∧ a - pageBase a < 4096) ∧
      (pageLen a s (pageBase a) % 4096 = 0 ∧
        a - pageBase a + s ≤ pageLen a s (pageBase a) ∧
        (∀ l, l % 4096 = 0 → a - pageBase a + s ≤ l → pageLen a s (pageBase a) ≤ l) ∧
        pageLen a s (pageBase a) - (a - pageBase a + s) < 4096 ∧
        (pageLen a s (pageBase a) = a - pageBase a + s ↔ (a - pageBase a + s) % 4096 = 0)) ∧
      (pageBase a ≤ a ∧ a + s ≤ pageBase a + pageLen a s (pageBase a)) := by
  have hb := pageBase_eq a ha
  have hl := pageLen_eq a s
  rw [hb] at hs hl ⊢
  rw [hl]
  refine ⟨⟨by omega, by omega, fun b h1 h2 => by omega, by omega⟩,
    ⟨by omega, by omega, fun l h1 h2 => by omega, by omega, by omega⟩, by omega, by omega⟩

/-- The region of 5000 bytes at `0x401234`: base `0x401000`, two pages. -/
theorem page_region_tightest_witness :
    pageBase 0x401234 = 0x401000 ∧ pageLen 0x401234 5000 (pageBase 0x401234) = 0x2000 ∧
      (∀ l, l % 4096 = 0 → 0x401234 - pageBase 0x401234 + 5000 ≤ l →
        pageLen 0x401234 5000 (pageBase 0x401234) ≤ l) :=
  ⟨by decide, by decide,
    (page_region_tightest 0x401234 5000 (by decide) (by decide)).2.1.2.2.1⟩

/-- C13: in every well-formed instance whose launcher buffer and `stub_raw` lie in the 64-bit
address space without overlapping, the one request `syscall(10, base, len, 0x7)` is made for
the page-aligned region that covers the whole launcher buffer: `base` and `len` are
multiples of 4096, `base ≤ A` and `A + 68 + stub_len ≤ base + len`; and
`fn_table[0] = A + 0x1c` lies inside that region and inside the 68-byte prologue. -/
theorem launcher_region_covers_buffer (fuel : Nat) (T : Template) (E : Env)
    (segs : List (Nat × Group)) (m : Nat) (rest : List Nat)
    (h18 : 18 ≤ T.stub_len) (hlen : T.stub_len ≤ T.stub_raw.length)
    (hvalid : ∀ sg ∈ segs, sg.2.Valid) (hpay : T.payload = encodedText segs m ++ rest)
    (hfuel : 86 ≤ fuel) (hfuel2 : (encodedText segs m).length ≤ fuel)
    (hbuf : E.stubbuf_addr + (68 + T.stub_len) ≤ 2 ^ 64)
    (hraw : E.stub_raw_addr + T.stub_raw.length ≤ 2 ^ 64)
    (hdisj : E.stubbuf_addr + (68 + T.stub_len) ≤ E.stub_raw_addr ∨
      E.stub_raw_addr + T.stub_raw.length ≤ E.stubbuf_addr) :
    ∃ inv base len, __libc_start_main fuel T E = .done inv ∧
      inv.syscalls = [⟨10, [base, len, 0x7]⟩] ∧
      base = pageBase E.stubbuf_addr ∧
      len = pageLen E.stubbuf_addr (68 + T.stub_len) (pageBase E.stubbuf_addr) ∧
      base % 4096 = 0 ∧ len % 4096 = 0 ∧
      base ≤ E.stubbuf_addr ∧ E.stubbuf_addr + 68 + T.stub_len ≤ base + len ∧
      inv.pd.fn_table 0 = E.stubbuf_addr + 0x1c ∧
      base ≤ inv.pd.fn_table 0 ∧ inv.pd.fn_table 0 < base + len ∧
      E.stubbuf_addr ≤ inv.pd.fn_table 0 ∧ inv.pd.fn_table 0 < E.stubbuf_addr + 68 := by
  obtain ⟨inv, h, hsys, hfn, -⟩ :=
    libc_start_main_stubbuf fuel T E segs m rest h18 hlen hvalid hpay hfuel hfuel2
  have hA : E.stubbuf_addr < 2 ^ 64 := by omega
  have hb := pageBase_eq E.stubbuf_addr hA
  obtain ⟨p1, p2, p3, -, p5, -⟩ := page_region E.stubbuf_addr (68 + T.stub_len) hA
    (by rw [hb]; omega)
  rw [Nat.mod_eq_of_lt (by omega)] at hfn
  refine ⟨inv, _, _, h, hsys, rfl, rfl, p2, p3, p1, by omega, hfn, ?_, ?_, ?_, ?_⟩ <;>
    rw [hfn] <;> omega

/-- In the sample instance the request is for the page of `stubbuf`. -/
theorem launcher_region_covers_buffer_witness :
    ∃ inv, __libc_start_main 86 (sampleTemplate 19) sampleEnv = .done inv ∧
      inv.syscalls = [⟨10, [0x7ffd00001000, 0x1000, 0x7]⟩] := by
  obtain ⟨inv, base, len, h, hs, rfl, rfl, -⟩ := launcher_region_covers_buffer 86
    (sampleTemplate 19) sampleEnv [] 0 [] (by decide) (by decide) (by decide) (by decide)
    (by decide) (by decide) (by decide) (by decide) (by decide)
  exact ⟨inv, h, hs⟩

/-- C15, as amended: in every well-formed instance the bootstrap makes exactly one
permission-change request before the call of the stub, `syscall(10, base, len, 0x7)` for the
page-aligned region of the launcher buffer. The region of the static `stub_raw` bytes is
computed and written into the header fields at `0x08` and `0x11`, and is not passed to any
request: when its base differs from the launcher's, no request names it. -/
theorem single_permission_request (fuel : Nat) (T : Template) (E : Env)
    (segs : List (Nat × Group)) (m : Nat) (rest : List Nat)
    (h18 : 18 ≤ T.stub_len) (hlen : T.stub_len ≤ T.stub_raw.length)
    (hvalid : ∀ sg ∈ segs, sg.2.Valid) (hpay : T.payload = encodedText segs m ++ rest)
    (hfuel : 86 ≤ fuel) (hfuel2 : (encodedText segs m).length ≤ fuel) :
    ∃ inv, __libc_start_main fuel T E = .done inv ∧
      inv.syscalls = [⟨10, [pageBase E.stubbuf_addr,
        pageLen E.stubbuf_addr (68 + T.stub_len) (pageBase E.stubbuf_addr), 0x7]⟩] ∧
      readLE 8 inv.stubbuf 0x08 = pageBase E.stub_raw_addr ∧
      readLE 4 inv.stubbuf 0x11 =
        pageLen E.stub_raw_addr T.stub_raw.length (pageBase E.stub_raw_addr) % 2 ^ 32 ∧
      (pageBase E.stub_raw_addr ≠ pageBase E.stubbuf_addr →
        ∀ sc ∈ inv.syscalls, sc.args.head? ≠ some (pageBase E.stub_raw_addr)) := by
  obtain ⟨inv, h, hsys, -, -, f3, f4, -⟩ :=
    libc_start_main_stubbuf fuel T E segs m rest h18 hlen hvalid hpay hfuel hfuel2
  refine ⟨inv, h, hsys, f3, f4, ?_⟩
  intro hne sc hsc
  rw [hsys, List.mem_singleton] at hsc
  subst hsc
  simpa using fun h => hne h.symm

/-- In the sample instance: one request, for the launcher page; the static base is in the
header. -/
theorem single_permission_request_witness :
    ∃ inv, __libc_start_main 86 (sampleTemplate 19) sampleEnv = .done inv ∧
      inv.syscalls = [⟨10, [0x7ffd00001000, 0x1000, 0x7]⟩] ∧
      readLE 8 inv.stubbuf 0x08 = 0x401000 := by
  obtain ⟨inv, h, hs, hb, -⟩ := single_permission_request 86
    (sampleTemplate 19) sampleEnv [] 0 [] (by decide) (by decide) (by decide) (by decide)
    (by decide) (by decide)
  exact ⟨inv, h, hs, hb⟩

/-- In the sample instance the requests made do not include both regions: none is for the
region of `stub_raw`. -/
theorem static_region_request_counterexample :
    ∃ inv, __libc_start_main 86 (sampleTemplate 19) sampleEnv = .done inv ∧
      ¬ ((⟨10, [pageBase sampleEnv.stub_raw_addr,
            pageLen sampleEnv.stub_raw_addr (sampleTemplate 19).stub_raw.length
              (pageBase sampleEnv.stub_raw_addr), 0x7]⟩ : Syscall) ∈ inv.syscalls ∧
          (⟨10, [pageBase sampleEnv.stubbuf_addr,
            pageLen sampleEnv.stubbuf_addr (68 + (sampleTemplate 19).stub_len)
              (pageBase sampleEnv.stubbuf_addr), 0x7]⟩ : Syscall) ∈ inv.syscalls) := by
  obtain ⟨inv, h, hsys, -⟩ := libc_start_main_stubbuf 86 (sampleTemplate 19) sampleEnv [] 0 []
    (by decide) (by decide) (by decide) (by decide) (by decide) (by decide)
  refine ⟨inv, h, ?_⟩
  rw [hsys]
  decide

/-- C19: in every well-formed instance the two header patches change only the bytes at offsets
`0x08..0x0F` and `0x11..0x14`: the fields do not overlap, they receive the bytes of `base`
and of `(u32) len`, and every other byte of the buffer keeps the value it had before
patching, in particular the byte at `0x10`, the bytes at `0x00..0x07` and `0x15..0x43` with
the entry at `0x1c`, and the copied stub bytes from offset 68. The length is unchanged. -/
theorem header_patch_frame (fuel : Nat) (T : Template) (E : Env) (h18 : 18 ≤ T.stub_len)
    (hlen : T.stub_len ≤ T.stub_raw.length) (hfuel : 86 ≤ fuel) :
    ∃ pre buf, assembleUnpatched fuel T E = .done pre ∧
      patchHeader pre (pageBase E.stub_raw_addr)
        (pageLen E.stub_raw_addr T.stub_raw.length (pageBase E.stub_raw_addr)) = .done buf ∧
      assemble fuel T E = .done buf ∧
      buf.length = pre.length ∧
      0x08 + 8 ≤ 0x11 ∧
      (∀ a, ¬ (0x08 ≤ a ∧ a ≤ 0x0F) → ¬ (0x11 ≤ a ∧ a ≤ 0x14) → buf[a]? = pre[a]?) ∧
      buf[0x10]? = pre[0x10]? ∧
      (∀ a, a ≤ 0x07 → buf[a]? = pre[a]?) ∧
      (∀ a, 0x15 ≤ a → a ≤ 0x43 → buf[a]? = pre[a]?) ∧
      buf[0x1c]? = pre[0x1c]? ∧
      (∀ i, buf[68 + i]? = pre[68 + i]?) ∧
      (∀ a, 0x08 ≤ a → a ≤ 0x0F →
        buf[a]? = some (pageBase E.stub_raw_addr / 256 ^ (a - 0x08) % 256)) ∧
      (∀ a, 0x11 ≤ a → a ≤ 0x14 →
        buf[a]? = some (pageLen E.stub_raw_addr T.stub_raw.length (pageBase E.stub_raw_addr)
          % 2 ^ 32 / 256 ^ (a - 0x11) % 256)) := by
  obtain ⟨pre, p1, p2, -⟩ := assembleUnpatched_spec fuel T E h18 hlen hfuel
  obtain ⟨buf, q1, q2, q3⟩ := patchHeader_frame pre (pageBase E.stub_raw_addr)
    (pageLen E.stub_raw_addr T.stub_raw.length (pageBase E.stub_raw_addr)) (by omega)
  have frame : ∀ a, ¬ (0x08 ≤ a ∧ a ≤ 0x0F) → ¬ (0x11 ≤ a ∧ a ≤ 0x14) → buf[a]? = pre[a]? := by
    intro a h1 h2
    rw [q3 a, if_neg (by omega), if_neg (by omega)]
  refine ⟨pre, buf, p1, q1, ?_, q2, by norm_num, frame, frame _ (by omega) (by omega),
    fun a h => frame a (by omega) (by omega), fun a h _ => frame a (by omega) (by omega),
    frame _ (by omega) (by omega), fun i => frame _ (by omega) (by omega), ?_, ?_⟩
  · rw [assemble_eq_patchHeader, p1]; exact q1
  · intro a h1 h2
    rw [q3 a, if_neg (by omega), if_pos (by omega), Nat.mod_eq_of_lt (pageBase_lt _)]
  · intro a h1 h2
    rw [q3 a, if_pos (by omega)]

/-- In the sample instance the byte at `0x10` and the entry at `0x1c` survive the patches. -/
theorem header_patch_frame_witness :
    ∃ pre buf, assembleUnpatched 86 (sampleTemplate 19) sampleEnv = .done pre ∧
      assemble 86 (sampleTemplate 19) sampleEnv = .done buf ∧
      buf[0x10]? = pre[0x10]? ∧ buf[0x1c]? = pre[0x1c]? := by
  obtain ⟨pre, buf, h1, -, h3, -, -, -, h7, -, -, h10, -⟩ := header_patch_frame 86
    (sampleTemplate 19) sampleEnv (by decide) (by decide) (by decide)
  exact ⟨pre, buf, h1, h3, h7, h10⟩

/-- C11, as amended: in every well-formed instance the full orchestration reaches the call of
the stub with a launcher buffer whose first 68 bytes are the decoded prologue except at the
two patched fields: every byte below 68 outside `0x08..0x0F` and `0x11..0x14` is the byte
`b85tobin` produced from the prologue text, the 8 bytes at `0x08` read as the page base of
`stub_raw` and the 4 bytes at `0x11` as the region length modulo `2^32`. For a 64-bit address
of `stub_raw` the 68 bytes are never the decoded prologue: the byte at `0x08` is `0`, where
the prologue has `0xEF`. -/
theorem launcher_prologue_except_fields (fuel : Nat) (T : Template) (E : Env)
    (segs : List (Nat × Group)) (m : Nat) (rest : List Nat)
    (h18 : 18 ≤ T.stub_len) (hlen : T.stub_len ≤ T.stub_raw.length)
    (hvalid : ∀ sg ∈ segs, sg.2.Valid) (hpay : T.payload = encodedText segs m ++ rest)
    (hfuel : 86 ≤ fuel) (hfuel2 : (encodedText segs m).length ≤ fuel) :
    ∃ inv, __libc_start_main fuel T E = .done inv ∧
      (∀ a, a < 68 → ¬ (0x08 ≤ a ∧ a ≤ 0x0F) → ¬ (0x11 ≤ a ∧ a ≤ 0x14) →
        inv.stubbuf[a]? = prologueBytes[a]?) ∧
      readLE 8 inv.stubbuf 0x08 = pageBase E.stub_raw_addr ∧
      readLE 4 inv.stubbuf 0x11 =
        pageLen E.stub_raw_addr T.stub_raw.length (pageBase E.stub_raw_addr) % 2 ^ 32 ∧
      (E.stub_raw_addr < 2 ^ 64 → inv.stubbuf.take 68 ≠ prologueBytes) := by
  obtain ⟨inv, h, -, -, -, f3, f4, hb⟩ :=
    libc_start_main_stubbuf fuel T E segs m rest h18 hlen hvalid hpay hfuel hfuel2
  refine ⟨inv, h, ?_, f3, f4, ?_⟩
  · intro a ha h1 h2
    rw [hb a, if_neg (by omega), if_neg (by omega), if_neg (by omega), if_pos ha]
  · intro hS heq
    have h8 := hb 8
    rw [if_neg (by omega), if_pos (by omega)] at h8
    have e : (List.take 68 inv.stubbuf)[8]? = inv.stubbuf[8]? := by
      rw [List.getElem?_take, if_pos (by norm_num)]
    rw [heq, h8] at e
    have hpb := pageBase_eq E.stub_raw_addr hS
    have hlt := pageBase_lt E.stub_raw_addr
    have e2 : prologueBytes[8]? = some 0xEF := by decide
    rw [e2] at e
    have := Option.some.inj e
    simp only [Nat.sub_self, pow_zero, Nat.div_one] at this
    omega

/-- In the sample instance byte 0 is the prologue's `0x51` and the base field is patched. -/
theorem launcher_prologue_except_fields_witness :
    ∃ inv, __libc_start_main 86 (sampleTemplate 19) sampleEnv = .done inv ∧
      inv.stubbuf[0]? = some 0x51 ∧ readLE 8 inv.stubbuf 0x08 = 0x401000 := by
  obtain ⟨inv, h, h1, h2, -⟩ := launcher_prologue_except_fields 86
    (sampleTemplate 19) sampleEnv [] 0 [] (by decide) (by decide) (by decide) (by decide)
    (by decide) (by decide)
  exact ⟨inv, h, h1 0 (by decide) (by decide) (by decide), h2⟩

/-- In the sample instance the first 68 bytes of the launcher buffer at the call of the stub
are not the decoded prologue. -/
theorem launcher_prologue_counterexample :
    ∃ inv, __libc_start_main 86 (sampleTemplate 19) sampleEnv = .done inv ∧
      inv.stubbuf.take 68 ≠ prologueBytes := by
  obtain ⟨inv, h, -, -, -, -, -, hb⟩ := libc_start_main_stubbuf 86 (sampleTemplate 19)
    sampleEnv [] 0 [] (by decide) (by decide) (by decide) (by decide) (by decide) (by decide)
  refine ⟨inv, h, fun heq => ?_⟩
  have h8 := hb 8
  rw [if_neg (by decide), if_pos (by decide)] at h8
  have e : (List.take 68 inv.stubbuf)[8]? = inv.stubbuf[8]? := by
    rw [List.getElem?_take, if_pos (by norm_num)]
  rw [heq, h8] at e
  revert e
  decide

/-- C12: NUL characters at group boundaries are no-ops. Two well-formed texts with the same
groups, whatever the numbers of NULs before each group and before the sentinel, decode (in
place, with any tables, any followers and a budget of one step a character) to the same
`4 * N` bytes, which are the bytes of the groups; the text without any NUL is one of them. -/
theorem nul_insertion_is_noop (t0 t0' : Nat → Nat) (segs segs' : List (Nat × Group))
    (m m' fuel fuel' : Nat) (rest rest' : List Nat)
    (hvalid : ∀ sg ∈ segs, sg.2.Valid) (hsame : segs'.map Prod.snd = segs.map Prod.snd)
    (hfuel : (encodedText segs m).length ≤ fuel)
    (hfuel' : (encodedText segs' m').length ≤ fuel') :
    ∃ s s', b85tobin t0 fuel (encodedText segs m ++ rest) 0 0 = .done s ∧
      b85tobin t0' fuel' (encodedText segs' m' ++ rest') 0 0 = .done s' ∧
      s.p = 4 * segs.length ∧ s'.p = s.p ∧
      s'.mem.take s'.p = s.mem.take s.p ∧
      s.mem.take s.p = decodedBytes (segs.map Prod.snd) ∧
      (∀ t0'', ∃ s0, b85tobin t0'' (5 * segs.length + 1)
          (groupsText (segs.map Prod.snd)) 0 0 = .done s0 ∧ s0.p = s.p ∧
        s0.mem.take s0.p = s.mem.take s.p) := by
  have hlen : segs'.length = segs.length := by
    have := congrArg List.length hsame
    simpa using this
  have hvalid' : ∀ sg ∈ segs', sg.2.Valid := by
    intro sg hsg
    have hm : sg.2 ∈ segs'.map Prod.snd := List.mem_map.2 ⟨sg, hsg, rfl⟩
    rw [hsame] at hm
    obtain ⟨sg0, h0, e0⟩ := List.mem_map.1 hm
    rw [← e0]; exact hvalid sg0 h0
  have r1 := b85tobin_in_place t0 segs m fuel rest hvalid hfuel
  have r2 := b85tobin_in_place t0' segs' m' fuel' rest' hvalid' hfuel'
  refine ⟨_, _, r1, r2, rfl, by simp only [hlen], ?_, take_decoded_append segs _, ?_⟩
  · show List.take (4 * segs'.length) _ = List.take (4 * segs.length) _
    rw [take_decoded_append, take_decoded_append, hsame]
  · intro t0''
    have hp : ((segs.map Prod.snd).map fun g => ((0 : Nat), g)).map Prod.snd =
        segs.map Prod.snd := by
      simp [Function.comp_def]
    have hl : ((segs.map Prod.snd).map fun g => ((0 : Nat), g)).length = segs.length := by
      simp
    have r3 := b85tobin_in_place t0'' ((segs.map Prod.snd).map fun g => (0, g)) 0
      (5 * segs.length + 1) [] (by
        intro sg hsg
        obtain ⟨g, hg, rfl⟩ := List.mem_map.1 hsg
        obtain ⟨sg0, h0, rfl⟩ := List.mem_map.1 hg
        exact hvalid sg0 h0)
      (by rw [encodedText_plain, length_groupsText, List.length_map])
    rw [encodedText_plain, List.append_nil, hp, hl] at r3
    refine ⟨_, r3, rfl, ?_⟩
    show List.take (4 * segs.length) _ = List.take (4 * segs.length) _
    rw [take_decoded_append, take_decoded_append]

/-- The text `QMd~L]` with one NUL in front and two before the sentinel, and without. -/
theorem nul_insertion_is_noop_witness :
    ∃ s s', b85tobin (fun _ => 0) 9 [0, 81, 77, 100, 126, 76, 0, 0, 93] 0 0 = .done s ∧
      b85tobin (fun _ => 0) 6 [81, 77, 100, 126, 76, 93] 0 0 = .done s' ∧
      s.p = 4 ∧ s'.p = s.p ∧ s'.mem.take s'.p = s.mem.take s.p := by
  obtain ⟨s, s', h1, h2, h3, h4, h5, -⟩ := nul_insertion_is_noop (fun _ => 0) (fun _ => 0)
    [(1, ⟨81, 77, 100, 126, 76⟩)] [(0, ⟨81, 77, 100, 126, 76⟩)] 2 0 9 6 [] []
    (by decide) (by decide) (by decide) (by decide)
  exact ⟨s, s', h1, h2, h3, h4, h5⟩

/-- C14: on a well-formed encoded text (groups, NULs between them allowed, then `]`) followed
by arbitrary further characters, `b85tobin` returns with `src` at the sentinel. It returns as
well when the memory object ends at the sentinel, where any read past it would fault, so no
character past the sentinel is read; and the pointers, the decoded bytes and the whole
storage of the text are the same whatever follows the sentinel, which is left as it was. -/
theorem sentinel_ends_decoding (t0 : Nat → Nat) (segs : List (Nat × Group))
    (m fuel : Nat) (rest rest' : List Nat)
    (hvalid : ∀ sg ∈ segs, sg.2.Valid) (hfuel : (encodedText segs m).length ≤ fuel) :
    ∃ s s' s0, b85tobin t0 fuel (encodedText segs m ++ rest) 0 0 = .done s ∧
      b85tobin t0 fuel (encodedText segs m ++ rest') 0 0 = .done s' ∧
      b85tobin t0 fuel (encodedText segs m) 0 0 = .done s0 ∧
      s.src = (encodedText segs m).length - 1 ∧ s'.src = s.src ∧ s0.src = s.src ∧
      (encodedText segs m ++ rest)[s.src]? = some 93 ∧
      s.p = 4 * segs.length ∧ s'.p = s.p ∧ s0.p = s.p ∧
      s.mem.take s.p = decodedBytes (segs.map Prod.snd) ∧
      s'.mem.take s'.p = s.mem.take s.p ∧ s0.mem.take s0.p = s.mem.take s.p ∧
      s.mem.take (encodedText segs m).length = s0.mem ∧
      s'.mem.take (encodedText segs m).length = s0.mem ∧
      s.mem.drop (encodedText segs m).length = rest := by
  have hge := length_encodedText_ge segs m
  have hD := length_decodedBytes_map segs
  have r1 := b85tobin_in_place t0 segs m fuel rest hvalid hfuel
  have r2 := b85tobin_in_place t0 segs m fuel rest' hvalid hfuel
  have r0 := b85tobin_in_place t0 segs m fuel [] hvalid hfuel
  rw [List.append_nil] at r0
  have hsent : ∀ r : List Nat,
      (encodedText segs m ++ r)[(encodedText segs m).length - 1]? = some 93 := by
    intro r
    rw [List.getElem?_append_left (by omega)]
    clear r1 r2 r0 hfuel hvalid hD hge
    induction segs with
    | nil => simp [encodedText, List.getElem?_append_right]
    | cons sg segs ih =>
      have hpos := length_encodedText_pos segs m
      rw [length_encodedText_cons]
      simp only [encodedText]
      rw [List.getElem?_append_right (by simp; omega),
        List.getElem?_append_right (by simp [Group.chars]; omega), ← ih]
      congr 1
      simp [Group.chars]; omega
  have hsplit : ∀ r : List Nat,
      (decodedBytes (segs.map Prod.snd) ++
        ((encodedText segs m).drop (4 * segs.length) ++ r)).take (encodedText segs m).length =
      decodedBytes (segs.map Prod.snd) ++ ((encodedText segs m).drop (4 * segs.length) ++ []) ∧
      (decodedBytes (segs.map Prod.snd) ++
        ((encodedText segs m).drop (4 * segs.length) ++ r)).drop (encodedText segs m).length =
      r := by
    intro r
    have hl : (decodedBytes (segs.map Prod.snd) ++
        (encodedText segs m).drop (4 * segs.length)).length = (encodedText segs m).length := by
      rw [List.length_append, List.length_drop, hD]; omega
    rw [List.append_nil, ← List.append_assoc, ← hl]
    exact ⟨List.take_left' rfl, List.drop_left' rfl⟩
  refine ⟨_, _, _, r1, r2, r0, rfl, rfl, rfl, hsent rest, rfl, rfl, rfl,
    take_decoded_append segs _, ?_, ?_, (hsplit rest).1, (hsplit rest').1, (hsplit rest).2⟩
  · show List.take (4 * segs.length) _ = List.take (4 * segs.length) _
    rw [take_decoded_append, take_decoded_append]
  · show List.take (4 * segs.length) _ = List.take (4 * segs.length) _
    rw [take_decoded_append, take_decoded_append]

/-- The same text followed by `1 2 3` and by `Q Q`. -/
theorem sentinel_ends_decoding_witness :
    ∃ s s', b85tobin (fun _ => 0) 9 ([0, 81, 77, 100, 126, 76, 0, 0, 93] ++ [1, 2, 3]) 0 0 =
        .done s ∧
      b85tobin (fun _ => 0) 9 ([0, 81, 77, 100, 126, 76, 0, 0, 93] ++ [81, 81]) 0 0 =
        .done s' ∧
      s.src = 8 ∧ s'.src = s.src ∧ s'.mem.take s'.p = s.mem.take s.p := by
  obtain ⟨s, s', s0, h1, h2, -, h4, h5, -, -, -, -, -, -, h12, -⟩ :=
    sentinel_ends_decoding (fun _ => 0) [(1, ⟨81, 77, 100, 126, 76⟩)] 2 9 [1, 2, 3] [81, 81]
      (by decide) (by decide)
  exact ⟨s, s', h1, h2, h4, h5, h12⟩

/-- C17: in-place decoding refines the pure decoder. When `b85tobin` is called with `dest`
and `src` at the start of the same storage holding a well-formed text of `N` groups, after
`k ≤ N` groups the write pointer is at `4 * k` and the read pointer at `5 * k` or more but
before the end of the text, no byte from the read pointer on has been altered, and the run
continues from that state. At the end the first `4 * N` bytes are `decodeSpec` of the text,
every byte at offset `4 * N` or more keeps its value, and decoding the same storage into a
separate buffer behind it yields the same `4 * N` bytes and leaves the storage intact. -/
theorem in_place_decoding_refines (t0 : Nat → Nat) (segs : List (Nat × Group)) (m fuel : Nat)
    (rest out : List Nat) (hvalid : ∀ sg ∈ segs, sg.2.Valid)
    (hfuel : (encodedText segs m).length ≤ fuel) (hout : 4 * segs.length ≤ out.length) :
    (∀ k, k ≤ segs.length → ∃ sk,
        afterGroups (digittobin t0) fuel k ⟨encodedText segs m ++ rest, 0, 0⟩ = .done sk ∧
        sk.p = 4 * k ∧ 5 * k ≤ sk.src ∧ sk.p ≤ sk.src ∧
        sk.src < (encodedText segs m).length ∧
        (∀ i, sk.src ≤ i → sk.mem[i]? = (encodedText segs m ++ rest)[i]?) ∧
        b85tobin t0 fuel (encodedText segs m ++ rest) 0 0 =
          decodeLoop (digittobin t0) (fuel - k) sk) ∧
      ∃ s s', b85tobin t0 fuel (encodedText segs m ++ rest) 0 0 = .done s ∧
        s.p = 4 * segs.length ∧ s.p ≤ s.src ∧
        s.mem.length = (encodedText segs m ++ rest).length ∧
        s.mem.take (4 * segs.length) = decodeSpec (encodedText segs m) ∧
        (∀ a, 4 * segs.length ≤ a → s.mem[a]? = (encodedText segs m ++ rest)[a]?) ∧
        b85tobin t0 fuel (encodedText segs m ++ rest ++ out)
          (encodedText segs m ++ rest).length 0 = .done s' ∧
        (s'.mem.drop (encodedText segs m ++ rest).length).take (4 * segs.length) =
          s.mem.take (4 * segs.length) ∧
        s'.mem.take (encodedText segs m ++ rest).length = encodedText segs m ++ rest := by
  have hge := length_encodedText_ge segs m
  have hD := length_decodedBytes_map segs
  have hspec : decodeSpec (encodedText segs m) = decodedBytes (segs.map Prod.snd) := by
    have := decodeSpec_encodedText segs m [] hvalid
    rwa [List.append_nil] at this
  constructor
  · intro k hk
    obtain ⟨memk, h1, -, h3, h4, h5, h6⟩ := afterGroups_encodedText t0 k segs m fuel
      (encodedText segs m ++ rest) 0 0 hk hvalid
      (by intro i hi; rw [Nat.zero_add, List.getElem?_append_left hi])
      (Or.inl (le_refl 0)) (by rw [List.length_append]; omega) hfuel
    refine ⟨_, h1, by simp, by simpa using h4, by simp only [Nat.zero_add]; omega,
      by simpa using h5, ?_, h6⟩
    intro i hi
    simp only [Nat.zero_add] at hi
    rw [h3 i, if_neg (by omega)]
  · have r1 := b85tobin_in_place t0 segs m fuel rest hvalid hfuel
    have r2 := b85tobin_separate t0 segs m fuel rest out hvalid hfuel hout
    refine ⟨_, _, r1, rfl, ?_, ?_, ?_, ?_, r2, ?_, ?_⟩
    · show 4 * segs.length ≤ (encodedText segs m).length - 1
      omega
    · simp only [List.length_append, List.length_drop, hD]
      omega
    · rw [hspec]; exact take_decoded_append segs _
    · intro a ha
      show (decodedBytes (segs.map Prod.snd) ++
        ((encodedText segs m).drop (4 * segs.length) ++ rest))[a]? = _
      rw [← List.drop_append_of_le_length (by omega), ← hD, getElem?_overwrite,
        if_neg (by omega)]
    · show List.take (4 * segs.length) (List.drop (encodedText segs m ++ rest).length
        (encodedText segs m ++ rest ++ _)) = List.take (4 * segs.length) _
      rw [List.drop_left, take_decoded_append, take_decoded_append]
    · exact List.take_left _ _

/-- The text with NULs decoded in place and into a separate buffer of 5 bytes. -/
theorem in_place_decoding_refines_witness :
    ∃ s s', b85tobin (fun _ => 0) 9 ([0, 81, 77, 100, 126, 76, 0, 0, 93] ++ [7]) 0 0 =
        .done s ∧
      b85tobin (fun _ => 0) 9 ([0, 81, 77, 100, 126, 76, 0, 0, 93] ++ [7] ++ [1, 2, 3, 4, 5])
        10 0 = .done s' ∧
      s.mem.take 4 = decodeSpec [0, 81, 77, 100, 126, 76, 0, 0, 93] ∧
      (s'.mem.drop 10).take 4 = s.mem.take 4 := by
  obtain ⟨-, s, s', h1, -, -, -, h5, -, h7, h8, -⟩ := in_place_decoding_refines (fun _ => 0)
    [(1, ⟨81, 77, 100, 126, 76⟩)] 2 9 [7] [1, 2, 3, 4, 5] (by decide) (by decide) (by decide)
  exact ⟨s, s', h1, h7, h5, h8⟩

/-- C18: group decoding is complete and unambiguous on canonical input. The group step of
`b85tobin` turns a group of 5 alphabet symbols into the 4 big-endian bytes of its value modulo
`2^32`; every sequence of 4 bytes is the output of a group with a value below `2^32`; two
distinct groups with values below `2^32` have different outputs; values reach at most
`85^5 - 1`, and every group whose value is `2^32` or more has the output of a different group
with the value less `2^32` (such groups exist: the one of value `85^5 - 1`). -/
theorem group_decoding_complete_unambiguous (t0 : Nat → Nat) :
    (∀ g : Group, g.Valid →
        decodeGroup (digittobin t0) ⟨g.chars, 0, 0⟩ =
          .done ⟨beBytes (g.value % 2 ^ 32) ++ [g.c4], 4, 5⟩) ∧
      (∀ b0 b1 b2 b3 : Nat, b0 < 256 → b1 < 256 → b2 < 256 → b3 < 256 →
        ∃ g : Group, g.Valid ∧ g.value < 2 ^ 32 ∧
          decodeGroup (digittobin t0) ⟨g.chars, 0, 0⟩ = .done ⟨[b0, b1, b2, b3] ++ [g.c4], 4, 5⟩) ∧
      (∀ g1 g2 : Group, g1.Valid → g2.Valid → g1.value < 2 ^ 32 → g2.value < 2 ^ 32 →
        g1 ≠ g2 → beBytes (g1.value % 2 ^ 32) ≠ beBytes (g2.value % 2 ^ 32)) ∧
      (∀ g : Group, g.Valid → g.value ≤ 85 ^ 5 - 1) ∧
      (∀ g : Group, g.Valid → 2 ^ 32 ≤ g.value →
        ∃ g' : Group, g'.Valid ∧ g' ≠ g ∧ g'.value < 2 ^ 32 ∧ g'.value + 2 ^ 32 = g.value ∧
          beBytes (g'.value % 2 ^ 32) = beBytes (g.value % 2 ^ 32)) ∧
      (∃ g : Group, g.Valid ∧ g.value = 85 ^ 5 - 1 ∧ 2 ^ 32 ≤ g.value) := by
  refine ⟨fun g hg => decodeGroup_chars t0 g hg, ?_, ?_, ?_, ?_, ?_⟩
  · intro b0 b1 b2 b3 h0 h1 h2 h3
    obtain ⟨g, hg, hv⟩ :=
      exists_group_of_value (b0 * 2 ^ 24 + b1 * 2 ^ 16 + b2 * 2 ^ 8 + b3) (by omega)
    refine ⟨g, hg, by omega, ?_⟩
    rw [decodeGroup_chars t0 g hg, hv]
    have e : beBytes ((b0 * 2 ^ 24 + b1 * 2 ^ 16 + b2 * 2 ^ 8 + b3) % 2 ^ 32) =
        [b0, b1, b2, b3] := by
      simp only [beBytes, List.cons.injEq, and_true]
      omega
    rw [e]
  · intro g1 g2 h1 h2 v1 v2 hne hb
    rw [Nat.mod_eq_of_lt v1, Nat.mod_eq_of_lt v2] at hb
    exact hne (value_injective g1 g2 h1 h2 (beBytes_injective _ _ v1 v2 hb))
  · intro g hg
    have := value_lt g hg
    omega
  · intro g hg hge
    have hlt := value_lt g hg
    obtain ⟨g', hg', hv'⟩ := exists_group_of_value (g.value - 2 ^ 32) (by omega)
    refine ⟨g', hg', ?_, by omega, by omega, ?_⟩
    · intro h
      rw [h] at hv'
      omega
    · have e : g'.value % 2 ^ 32 = g.value % 2 ^ 32 := by omega
      rw [e]
  · obtain ⟨g, hg, hv⟩ := exists_group_of_value (85 ^ 5 - 1) (by norm_num)
    exact ⟨g, hg, hv, by rw [hv]; norm_num⟩

end Basm
